import Mathlib

/-!
Verification development for the mutagen filesystem snapshot scanner,
its URL parser/formatter and its endpoint-connect layer.

The Go sources are shallowly embedded:
* `src/sync/scan.go` — the `scanner` methods (`file`, `symlink`, `directory`
  with its per-child loop) and `Scan`, modelled over an inductive filesystem
  tree that can express list/stat races, read failures and readlink failures.
* the `URL.Format` methods (`src/unnamed/part_000`).
* `src/session/connect.go` — `connect`, with the endpoint constructors
  (which are outside the provided sources) abstracted as parameters.
Parts of the repository that the claims need but that are not under the
provided sources (the glob path ignorer, `Parse`) are modelled from the
specification; each such definition carries a `Modelled from the spec:`
doc comment.

Strings are represented as `List Char` where character-level reasoning is
needed (URL parsing/formatting, glob patterns); filesystem paths stay
`String` as in the source. Go byte slices are `List Nat`; the `nil` slice
is the empty list, matching the protobuf wire representation where an
absent `bytes` field and an empty one coincide. Machine integers (`uint32`
mode bits, `uint64` sizes, timestamps) are `Nat`/`Int`; all operations the
source performs on them are overflow-free.
-/

/-! ### List-of-characters helpers -/

/-- Split a character list at the first occurrence of `t`: returns the part
before and the part after, or `none` when `t` does not occur. -/
def splitAt? (t : Char) : List Char → Option (List Char × List Char)
  | [] => none
  | c :: rest =>
    if c = t then some ([], rest)
    else (splitAt? t rest).map (fun p => (c :: p.1, p.2))

/-! ### Occurrences of the scheme separator `://` -/

/-- Does the list begin with the three characters `:`, `/`, `/`? -/
def startsCSS : List Char → Bool
  | c :: d :: e :: _ => c = ':' && d = '/' && e = '/'
  | _ => false

/-- Does the list contain `://` anywhere? -/
def hasCSS : List Char → Bool
  | [] => false
  | c :: rest => startsCSS (c :: rest) || hasCSS rest

/-! ### Decimal rendering of port numbers (Go `fmt %d`) -/

/-- The decimal digit character for `d < 10`. -/
def digitChar (d : Nat) : Char := Char.ofNat (48 + d)

def isDecDigit (c : Char) : Bool := '0' ≤ c && c ≤ '9'

/-- Decimal rendering of a natural number, as `fmt.Sprintf("%d", n)` does. -/
def natToDec (n : Nat) : List Char :=
  if n < 10 then [digitChar n]
  else natToDec (n / 10) ++ [digitChar (n % 10)]
  decreasing_by exact Nat.div_lt_self (by omega) (by omega)

/-- Numeric value of a list of decimal digit characters. -/
def decVal (l : List Char) : Nat :=
  l.foldl (fun a c => a * 10 + (c.toNat - 48)) 0

def allDecDigits (l : List Char) : Bool := l.all isDecDigit

/-! ### URL data model (the `url` package)

`URL.Format`, `formatLocal`, `formatSSH` and `formatCustom` are embedded
from the source. `Parse` is not among the provided sources (only its tests
are), so it is modelled from the specification, §4.1, and validated against
the full test corpus below. Strings are `List Char`. -/

inductive Protocol where
  | Local
  | SSH
  | Custom
deriving DecidableEq, Repr

/-- String name of a protocol enum value, as Go's `%s` renders it.
Modelled from the spec: the protobuf enum value names of the `url`
package's `Protocol` type, which is not among the provided sources. -/
def protocolName : Protocol → List Char
  | .Local => 'L' :: 'o' :: 'c' :: 'a' :: 'l' :: []
  | .SSH => 'S' :: 'S' :: 'H' :: []
  | .Custom => 'C' :: 'u' :: 's' :: 't' :: 'o' :: 'm' :: []

structure URL where
  Protocol : Protocol
  Username : List Char := []
  Hostname : List Char := []
  Port : Nat := 0
  Path : List Char := []
deriving DecidableEq, Repr

/-- `formatLocal` formats a local URL (source: `URL.formatLocal`). -/
def URL.formatLocal (u : URL) : List Char := u.Path

/-- `formatSSH` formats an SSH URL into an SCP-style URL
(source: `URL.formatSSH`). -/
def URL.formatSSH (u : URL) : List Char :=
  let result := u.Hostname
  let result := if u.Username ≠ [] then u.Username ++ '@' :: result else result
  let result := if u.Port ≠ 0 then result ++ ':' :: natToDec u.Port else result
  result ++ ':' :: u.Path

/-- `formatCustom` formats a custom URL: custom URLs are opaque and their
value is returned unchanged (source: `URL.formatCustom`). -/
def URL.formatCustom (u : URL) : List Char := u.Path

/-- `Format` formats a URL into a human-readable (and reparsable) format
(source: `URL.Format`). The Go original panics on an unknown protocol;
the model's `Protocol` type has exactly the three declared values, so
that branch cannot be reached. -/
def URL.Format (u : URL) : List Char :=
  match u.Protocol with
  | .Local => u.formatLocal
  | .SSH => u.formatSSH
  | .Custom => u.formatCustom

/-- Scheme grammar `[A-Za-z][A-Za-z0-9+.\-]*` for custom URLs. -/
def isSchemeChar (c : Char) : Bool :=
  ('A' ≤ c && c ≤ 'Z') || ('a' ≤ c && c ≤ 'z') || ('0' ≤ c && c ≤ '9') ||
    c = '+' || c = '.' || c = '-'

def isAlphaChar (c : Char) : Bool :=
  ('A' ≤ c && c ≤ 'Z') || ('a' ≤ c && c ≤ 'z')

def validScheme (l : List Char) : Bool :=
  match l with
  | [] => false
  | c :: rest => isAlphaChar c && rest.all isSchemeChar

/-- The prefix before the first `://`, when the list contains one. -/
def schemeOf : List Char → Option (List Char)
  | [] => none
  | c :: rest =>
    if startsCSS (c :: rest) then some []
    else (schemeOf rest).map (c :: ·)

/-- Port extraction: if the component between the first and second `:` of
the post-host tail is non-empty, entirely decimal and at most 65535, it is
the port and the rest is the path; otherwise the port is 0 and the whole
tail is the path. Modelled from the spec, §4.1 step 5. -/
def portToken? (tail : List Char) : Option (Nat × List Char) :=
  match splitAt? ':' tail with
  | some (comp, rest) =>
    if comp ≠ [] && allDecDigits comp && decide (decVal comp ≤ 65535) then
      some (decVal comp, rest)
    else none
  | none => none

def extractPort (tail : List Char) : Nat × List Char :=
  (portToken? tail).getD (0, tail)

/-- Modelled from the spec: `Parse` of the `url` package, which is not
among the provided sources (only its test file is). Algorithm from §4.1:
custom-scheme recognition on `://`, then split on the first `@` for the
username, then on the first `:` for the hostname, then optional port
extraction. One scp-style rule is stated only by the spec's §6 examples
and the test corpus (`TestParsePath`: `"/this/is/a:path"` is Local), not
by the §4.1 step list: when a `/` precedes the first `:` of the
host-and-path part, the URL is Local. The spec speaks of the first
*unescaped* `@` but defines no escape grammar and the test corpus
contains none, so no escaping is modelled. Validated against every case
of the test corpus below. `parseHostAndPath` is the hostname/port/path
stage shared by the with-username and without-username cases. -/
def parseHostAndPath (raw username hap : List Char) :
    Except (List Char) URL :=
  match splitAt? ':' hap with
  | none => .ok { Protocol := .Local, Path := raw }
  | some (hostname, tail) =>
    if '/' ∈ hostname then .ok { Protocol := .Local, Path := raw }
    else if hostname = [] then .error ('h' :: 'o' :: 's' :: 't' :: [])
    else
      .ok { Protocol := .SSH, Username := username, Hostname := hostname,
            Port := (extractPort tail).1, Path := (extractPort tail).2 }

def Parse (raw : List Char) : Except (List Char) URL :=
  if raw = [] then .error ('e' :: 'm' :: 'p' :: 't' :: 'y' :: [])
  else
    match schemeOf raw with
    | some scheme =>
      if validScheme scheme then .ok { Protocol := .Custom, Path := raw }
      else .error ('s' :: 'c' :: 'h' :: 'e' :: 'm' :: 'e' :: [])
    | none =>
      match splitAt? '@' raw with
      | some (u, rest) => parseHostAndPath raw u rest
      | none => parseHostAndPath raw [] raw

/-- The structural facts holding of every SSH URL in the image of `Parse`,
exactly those needed for the round-trip theorem. -/
def SSHShape (u : URL) : Prop :=
  u.Protocol = .SSH ∧ '@' ∉ u.Username ∧ ':' ∉ u.Hostname ∧
    '/' ∉ u.Hostname ∧ u.Hostname ≠ [] ∧ u.Port ≤ 65535 ∧
    hasCSS u.Username = false ∧ hasCSS u.Hostname = false ∧
    hasCSS u.Path = false ∧ ∀ x, u.Path ≠ '/' :: '/' :: x

instance instDecEqExcept {e a : Type} [DecidableEq e] [DecidableEq a] :
    DecidableEq (Except e a)
  | .error x, .error y =>
    if h : x = y then isTrue (by rw [h]) else isFalse (by simp [h])
  | .ok x, .ok y =>
    if h : x = y then isTrue (by rw [h]) else isFalse (by simp [h])
  | .error _, .ok _ => isFalse (by simp)
  | .ok _, .error _ => isFalse (by simp)

/-- The URL that `Parse` produces from `"host:0:0:path"`: an explicit
port 0 with path `"0:path"`. -/
def c8url : URL :=
  { Protocol := .SSH, Hostname := 'h' :: 'o' :: 's' :: 't' :: [],
    Port := 0, Path := '0' :: ':' :: 'p' :: 'a' :: 't' :: 'h' :: [] }

/-- The SSH URL parsed from `"user@host:22:path"`. -/
def c8wurl : URL :=
  { Protocol := .SSH, Username := 'u' :: 's' :: 'e' :: 'r' :: [],
    Hostname := 'h' :: 'o' :: 's' :: 't' :: [], Port := 22,
    Path := 'p' :: 'a' :: 't' :: 'h' :: [] }

/-! ### The endpoint connect layer (`src/session/connect.go`)

`connect` selects the endpoint construction from the URL protocol. The
endpoint constructors (`newLocalEndpoint`, `agent.DialSSH`,
`newRemoteEndpoint`) are outside the provided sources; they are abstracted
as parameters with arbitrary result types, so every theorem below holds
for any implementation of them. `session` is a string, `Version` and the
ignore specification are opaque to `connect` and modelled as `Nat` and
`List String`. Error wrapping follows `github.com/pkg/errors`:
`Wrap(err, msg)` renders as `msg ++ ": " ++ err`. -/

def wrapErr (msg e : List Char) : List Char := msg ++ ':' :: ' ' :: e

structure ConnectOps (E C : Type) where
  newLocalEndpoint :
    String → Nat → List Char → List String → Bool → Except (List Char) E
  dialSSH : URL → String → Except (List Char) C
  newRemoteEndpoint :
    C → String → Nat → List Char → List String → Bool → Except (List Char) E

/-- `connect` from `src/session/connect.go`: Local URLs yield an
in-process endpoint built from the URL path; SSH URLs dial the agent
transport in endpoint mode and build a remote endpoint over the
connection; anything else is an error naming the protocol. -/
def connect {E C : Type} (ops : ConnectOps E C) (session : String)
    (version : Nat) (url : URL) (ignores : List String) (alpha : Bool)
    (prompter : String) : Except (List Char) E :=
  if url.Protocol = .Local then
    match ops.newLocalEndpoint session version url.Path ignores alpha with
    | .error e =>
      .error (wrapErr "unable to create local endpoint".data e)
    | .ok endpoint => .ok endpoint
  else if url.Protocol = .SSH then
    match ops.dialSSH url prompter with
    | .error e => .error (wrapErr "unable to connect to SSH remote".data e)
    | .ok connection =>
      match ops.newRemoteEndpoint connection session version url.Path
          ignores alpha with
      | .error e =>
        .error (wrapErr "unable to create remote endpoint".data e)
      | .ok endpoint => .ok endpoint
  else
    .error ("unknown protocol: ".data ++ protocolName url.Protocol)

/-- Concrete endpoint constructors for the C9 witness. -/
def c9ops : ConnectOps Nat Nat where
  newLocalEndpoint := fun _ _ _ _ _ => .ok 1
  dialSSH := fun _ _ => .ok 2
  newRemoteEndpoint := fun _ _ _ _ _ _ => .ok 3

/-! ### The filesystem snapshot scanner (`src/sync/scan.go`)

The filesystem is modelled as an inductive tree. Each node carries the
stat information the scanner observes, the outcome of opening and reading
it as a file, the directory listing (`none` when reading the directory
fails), and the readlink result (`none` when readlink fails). A listing
entry pairs the name returned by the directory read with the outcome of
the subsequent per-child `lstat`, which can be `notFound` (the child
vanished between listing and stat), another error, or a subtree. This
lets the model express every race and failure the source handles.

Go `os.FileMode` bit constants (the host language's, not this repo's). -/

def ModeDir : Nat := 2 ^ 31
def ModeSymlink : Nat := 2 ^ 27
def ModeNamedPipe : Nat := 2 ^ 25
def ModeSocket : Nat := 2 ^ 24
def ModeDevice : Nat := 2 ^ 26
def ModeCharDevice : Nat := 2 ^ 21
def ModeIrregular : Nat := 2 ^ 19

/-- `os.ModeType`, the mask of all mode type bits. -/
def ModeType : Nat :=
  ModeDir ||| ModeSymlink ||| ModeNamedPipe ||| ModeSocket ||| ModeDevice |||
    ModeCharDevice ||| ModeIrregular

/-- Modelled from the spec: `AnyExecutablePermission` is defined outside
the provided sources; §4.4 says the any-execute bit covers user, group
and other execute permissions, i.e. `0o111`. -/
def AnyExecutablePermission : Nat := 0o111

/-- Modelled from the spec: whether the host platform supports symlinks;
`true` on POSIX, which is the platform this development models. -/
def symlinksSupported : Bool := true

/-- The stat information the scanner reads from `os.FileInfo`: the full
`uint32` file mode, the modification time (an opaque instant compared
with `time.Time.Equal`, modelled as `Int`), and the `uint64` size. -/
structure StatInfo where
  mode : Nat
  mtime : Int
  size : Nat
deriving DecidableEq, Repr

/-- `CacheEntry` of the `sync` package, with the source's field names. -/
structure CacheEntry where
  Mode : Nat
  ModificationTime : Int
  Size_ : Nat
  Digest : List Nat
deriving DecidableEq, Repr

/-- `Cache.Entries`, a `map[string]*CacheEntry`, as an association list in
which the most recent insertion comes first and shadows older bindings. -/
abbrev Cache := List (String × CacheEntry)

def lookupCache (c : Cache) (p : String) : Option CacheEntry :=
  (c.find? (fun kv => kv.1 == p)).map (·.2)

/-- Map assignment `entries[p] = e`. -/
def insertCache (c : Cache) (p : String) (e : CacheEntry) : Cache :=
  (p, e) :: c

inductive EntryKind where
  | File
  | Directory
  | Symlink
deriving DecidableEq, Repr

/-- `Entry` of the `sync` package: kind, executability, digest, symlink
target and directory contents (a `map[string]*Entry`, as an association
list). -/
inductive Entry where
  | mk (Kind : EntryKind) (Executable : Bool) (Digest : List Nat)
      (Target : String) (Contents : List (String × Entry))

def Entry.Kind : Entry → EntryKind
  | .mk k _ _ _ _ => k

def Entry.Executable : Entry → Bool
  | .mk _ e _ _ _ => e

def Entry.Digest : Entry → List Nat
  | .mk _ _ d _ _ => d

def Entry.Target : Entry → String
  | .mk _ _ _ t _ => t

def Entry.Contents : Entry → List (String × Entry)
  | .mk _ _ _ _ c => c

/-- The outcome of opening a node as a file and streaming it through the
hasher: the open can fail, the copy can fail partway, or it yields the
byte content — whose length may disagree with the stat size when the file
changed in between. -/
inductive ReadOutcome where
  | openErr
  | readErr (readSoFar : List Nat)
  | bytes (b : List Nat)
deriving DecidableEq, Repr

/-- The outcome of `os.Lstat` on a listed child. -/
inductive Lstat (t : Type) where
  | notFound
  | ioErr
  | found (tree : t)
deriving DecidableEq, Repr

inductive FSTree where
  | mk (info : StatInfo) (content : ReadOutcome)
      (listing : Option (List (String × Lstat FSTree)))
      (target : Option String)

def FSTree.info : FSTree → StatInfo
  | .mk i _ _ _ => i

def FSTree.content : FSTree → ReadOutcome
  | .mk _ c _ _ => c

def FSTree.listing : FSTree → Option (List (String × Lstat FSTree))
  | .mk _ _ l _ => l

def FSTree.target : FSTree → Option String
  | .mk _ _ _ t => t

/-- The outcome of the follow-symlinks `os.Stat` on the scan root. -/
inductive RootStat where
  | notFound
  | ioErr
  | found (tree : FSTree)

/-! ### The path ignorer

Modelled from the spec, §4.3: the ignorer compiles an ordered list of
shell-style glob patterns (`*`, `?`, `[...]`, with a leading `!` for
negation) and `ignored(path)` is true iff the last matching pattern is
non-negated. Compilation fails on malformed patterns — in this model, a
character class that is never closed, such as the pattern `"["`. The
ignorer implementation is not among the provided sources; only its use by
`Scan` is. -/

inductive GlobTok where
  | lit (c : Char)
  | anyOne
  | star
  | cls (negated : Bool) (ranges : List (Char × Char))
deriving DecidableEq, Repr

/-- Single-pass glob pattern compiler. The second argument is the state
of an open character class (`none` outside a class); a pattern whose
class is never closed is malformed. -/
def globCompile : List Char → Option (Bool × List (Char × Char)) →
    Option (List GlobTok)
  | [], none => some []
  | [], some _ => none
  | ']' :: r, some (neg, items) =>
    (globCompile r none).map (GlobTok.cls neg items :: ·)
  | c :: '-' :: ']' :: r2, some (neg, items) =>
    globCompile ('-' :: ']' :: r2) (some (neg, (c, c) :: items))
  | c :: '-' :: b :: r2, some (neg, items) =>
    globCompile r2 (some (neg, (c, b) :: items))
  | c :: r, some (neg, items) => globCompile r (some (neg, (c, c) :: items))
  | '[' :: '^' :: r, none => globCompile r (some (true, []))
  | '[' :: r, none => globCompile r (some (false, []))
  | '*' :: r, none => (globCompile r none).map (.star :: ·)
  | '?' :: r, none => (globCompile r none).map (.anyOne :: ·)
  | c :: r, none => (globCompile r none).map (.lit c :: ·)

def inRanges (rs : List (Char × Char)) (c : Char) : Bool :=
  rs.any (fun p => p.1 ≤ c && c ≤ p.2)

/-- Glob matching; a `*` matches an arbitrary suffix-to-suffix gap, which
is expressed by trying every suffix of the remaining input. -/
def globMatch : List GlobTok → List Char → Bool
  | [], s => s.isEmpty
  | .star :: ps, s => s.tails.any (fun r => globMatch ps r)
  | .anyOne :: ps, s =>
    match s with
    | [] => false
    | _ :: ss => globMatch ps ss
  | .cls neg rs :: ps, s =>
    match s with
    | [] => false
    | c :: ss => (inRanges rs c != neg) && globMatch ps ss
  | .lit a :: ps, s =>
    match s with
    | [] => false
    | c :: ss => (a == c) && globMatch ps ss

structure IgnorePattern where
  negated : Bool
  tokens : List GlobTok
deriving DecidableEq, Repr

/-- Compile an ignore pattern list; a leading `!` marks negation. -/
def newPathIgnorer : List String → Except (List Char) (List IgnorePattern)
  | [] => .ok []
  | p :: rest =>
    let body := match p.data with
      | '!' :: r => (true, r)
      | d => (false, d)
    match globCompile body.2 none with
    | none => .error "unable to parse ignore pattern".data
    | some toks =>
      match newPathIgnorer rest with
      | .error e => .error e
      | .ok pats => .ok (⟨body.1, toks⟩ :: pats)

/-- `ignored(path)`: true iff the last matching pattern is non-negated. -/
def ignored (pats : List IgnorePattern) (path : String) : Bool :=
  pats.foldl
    (fun acc p => if globMatch p.tokens path.data then !p.negated else acc)
    false

/-! ### The scanner

The `scanner` struct of `src/sync/scan.go`, without the fields that the
model renders differently: `root` is subsumed by addressing the tree
structurally, `buffer` does not influence results, and `newCache` is
threaded explicitly through the recursion as state. -/

structure scanner where
  hasher : List Nat → List Nat
  cache : Cache
  pathIgnorer : List IgnorePattern
  ignoreSize : Nat

/-- `pathpkg.Join(path, name)` for a base name returned by a directory
read: such names are non-empty and contain no separator, for which
`path.Join` reduces to plain concatenation. -/
def pathJoin (p n : String) : String := if p = "" then n else p ++ "/" ++ n

/-- The cache-hit test of `scanner.file` (scan.go lines 52–56): type bits
of the mode, modification time, and size must all match. -/
def cacheMatch (cached : CacheEntry) (info : StatInfo) : Bool :=
  (cached.Mode &&& ModeType == info.mode &&& ModeType) &&
    (info.mtime == cached.ModificationTime) && (cached.Size_ == info.size)

/-- The digest `scanner.file` pulls from the cache: the cached digest on
a valid hit, and the nil digest (`[]`) on a miss — note that a valid hit
whose cached digest is itself nil also leaves `digest` nil. -/
def scanner.cachedDigest (s : scanner) (path : String) (info : StatInfo) :
    List Nat :=
  match lookupCache s.cache path with
  | some cached => if cacheMatch cached info then cached.Digest else []
  | none => []

/-- `scanner.file`: reuse the cached digest when it is non-nil, otherwise
open and hash the file, failing when the open or the copy fails or the
copied byte count disagrees with the stat size; then record a cache entry
under the path with the currently observed mode, mtime and size, and
produce the file entry. -/
def scanner.file (s : scanner) (path : String) (info : StatInfo)
    (content : ReadOutcome) (newCache : Cache) :
    Except (List Char) (Entry × Cache) :=
  let mode := info.mode
  let executable := (mode &&& AnyExecutablePermission) != 0
  let digest := s.cachedDigest path info
  match
    (if digest = [] then
      match content with
      | .openErr => .error "unable to open file".data
      | .readErr _ => .error "unable to hash file contents".data
      | .bytes b =>
        if b.length = info.size then .ok (s.hasher b)
        else .error "hashed size mismatch".data
    else (.ok digest : Except (List Char) (List Nat))) with
  | .error e => .error e
  | .ok digest =>
    .ok (Entry.mk .File executable digest "" [],
      insertCache newCache path ⟨mode, info.mtime, info.size, digest⟩)

/-- `scanner.symlink`: read the target, failing on a read error or an
empty target. -/
def scanner.symlink (_ : scanner) (_ : String) (target : Option String) :
    Except (List Char) Entry :=
  match target with
  | none => .error "unable to read symlink target".data
  | some t =>
    if t = "" then .error "empty symlink target read".data
    else .ok (Entry.mk .Symlink false [] t [])

mutual

/-- `scanner.directory`: read the listing, then fold the per-child loop
over it (`scanner.children`), producing the directory entry. -/
def scanner.directory (s : scanner) (path : String) (t : FSTree)
    (newCache : Cache) : Except (List Char) (Entry × Cache) :=
  match t with
  | .mk _ _ none _ => .error "unable to read directory contents".data
  | .mk _ _ (some ents) _ =>
    match scanner.children s path ents [] newCache with
    | .error e => .error e
    | .ok (contents, nc) => .ok (Entry.mk .Directory false [] "" contents, nc)

/-- The per-child loop body of `scanner.directory` (scan.go lines
125–184): ignore check, lstat outcome (skipping vanished children,
failing on other stat errors), kind classification from the mode bits
(skipping "other" kinds), the size filter — which, as in the source,
applies only when the computed kind is File — and dispatch to `file`,
`symlink` (skipped entirely when symlinks are unsupported) or a recursive
`directory` call. Produced entries accumulate in `acc`. -/
def scanner.children (s : scanner) (path : String)
    (ents : List (String × Lstat FSTree)) (acc : List (String × Entry))
    (newCache : Cache) :
    Except (List Char) (List (String × Entry) × Cache) :=
  match ents with
  | [] => .ok (acc, newCache)
  | (name, fate) :: rest =>
    if ignored s.pathIgnorer (pathJoin path name) then
      scanner.children s path rest acc newCache
    else
      match fate with
      | .notFound => scanner.children s path rest acc newCache
      | .ioErr => .error "unable to stat directory content".data
      | .found t =>
        if t.info.mode &&& ModeDir ≠ 0 then
          match scanner.directory s (pathJoin path name) t newCache with
          | .error e => .error e
          | .ok (entry, nc) =>
            scanner.children s path rest ((name, entry) :: acc) nc
        else if t.info.mode &&& ModeSymlink ≠ 0 then
          if symlinksSupported then
            match scanner.symlink s (pathJoin path name) t.target with
            | .error e => .error e
            | .ok entry =>
              scanner.children s path rest ((name, entry) :: acc) newCache
          else scanner.children s path rest acc newCache
        else if t.info.mode &&& ModeType ≠ 0 then
          scanner.children s path rest acc newCache
        else if s.ignoreSize > 0 ∧ t.info.size ≥ s.ignoreSize then
          scanner.children s path rest acc newCache
        else
          match scanner.file s (pathJoin path name) t.info t.content
              newCache with
          | .error e => .error e
          | .ok (entry, nc) =>
            scanner.children s path rest ((name, entry) :: acc) nc

end

/-- `Scan`: treat a nil cache as empty, compile the ignorer (failing on a
malformed pattern before the root is even examined), then stat the root
with symlink-following semantics: a missing root is a successful empty
scan, a stat error or a root that is neither a directory nor a regular
file is an error, and otherwise the root is scanned as a directory or as
a file under the empty relative path. -/
def Scan (root : RootStat) (hasher : List Nat → List Nat)
    (cache : Option Cache) (ignores : List String) (ignoreSize : Nat) :
    Except (List Char) (Option Entry × Cache) :=
  match newPathIgnorer ignores with
  | .error e => .error (wrapErr "unable to create ignorer".data e)
  | .ok pathIgnorer =>
    let s : scanner := ⟨hasher, cache.getD [], pathIgnorer, ignoreSize⟩
    match root with
    | .notFound => .ok (none, [])
    | .ioErr => .error "unable to probe snapshot root".data
    | .found t =>
      if t.info.mode &&& ModeDir ≠ 0 then
        match scanner.directory s "" t [] with
        | .error e => .error e
        | .ok (rootEntry, newCache) => .ok (some rootEntry, newCache)
      else if t.info.mode &&& ModeType ≠ 0 then
        .error "invalid snapshot root type".data
      else
        match scanner.file s "" t.info t.content [] with
        | .error e => .error e
        | .ok (rootEntry, newCache) => .ok (some rootEntry, newCache)

/-! ### Concrete fixtures used by witnesses and counterexamples -/

/-- A simple concrete hasher: the digest is the byte count. -/
def hashLen : List Nat → List Nat := fun b => [b.length]

/-- A cache whose entry under `"f"` has a nil digest. -/
def c1cache : Cache := [("f", ⟨0o644, 5, 3, []⟩)]

def c1s : scanner := ⟨hashLen, c1cache, [], 0⟩

/-- A cache whose entry under `"f"` has digest `[9]`. -/
def c1wcache : Cache := [("f", ⟨0o644, 5, 3, [9]⟩)]

def c1ws : scanner := ⟨hashLen, c1wcache, [], 0⟩

/-- A regular file of stat size 1 with content byte `9`. -/
def smallFile : FSTree := .mk ⟨0o644, 5, 1⟩ (.bytes [9]) none none

/-- A directory whose only child `"a"` is `smallFile`. -/
def c6dir : FSTree := .mk ⟨ModeDir, 7, 0⟩ .openErr (some [("a", .found smallFile)]) none

/-! ### Snapshot paths and tree lookup, for the cache invariants -/

mutual

/-- Component paths (relative to the subtree root) of every File entry in
a snapshot subtree, paired with the entry. -/
def filePairs : Entry → List (List String × Entry)
  | .mk .File ex d tg c => [([], .mk .File ex d tg c)]
  | .mk .Directory _ _ _ contents => filePairsList contents
  | .mk .Symlink _ _ _ _ => []

def filePairsList : List (String × Entry) → List (List String × Entry)
  | [] => []
  | (n, e) :: rest =>
    (filePairs e).map (fun p => (n :: p.1, p.2)) ++ filePairsList rest

end

/-- Rendering of a component path under a base path, mirroring how the
scanner composes child paths. -/
def renderUnder (q : String) (comps : List String) : String :=
  comps.foldl pathJoin q

def cacheKeys (c : Cache) : List String := c.map (·.1)

/-- The subtree found (by the per-child lstat) under a listed name. -/
def findFound (l : List (String × Lstat FSTree)) (n : String) :
    Option FSTree :=
  match l.find? (fun kv => kv.1 == n) with
  | some (_, .found t) => some t
  | _ => none

/-- The stat information the scan observed at a component path of the
tree. -/
def statAtTree (t : FSTree) : List String → Option StatInfo
  | [] => some t.info
  | n :: comps =>
    match t.listing with
    | none => none
    | some l =>
      match findFound l n with
      | some t2 => statAtTree t2 comps
      | none => none

/-- A directory-entry base name as a real filesystem produces it:
non-empty and free of the path separator. -/
def goodName (n : String) : Bool := (n != "") && decide ('/' ∉ n.data)

mutual

/-- Well-formedness of a modelled filesystem tree: every listing has
pairwise distinct names and every name is a real base name — as holds of
any tree a real `readdir` can report. -/
def wfTree : FSTree → Bool
  | .mk _ _ none _ => true
  | .mk _ _ (some l) _ => decide ((l.map Prod.fst).Nodup) && wfList l

/-- The per-fate well-formedness condition of one listed child. -/
def lstatWf : Lstat FSTree → Bool
  | .found t => wfTree t
  | _ => true

def wfList : List (String × Lstat FSTree) → Bool
  | [] => true
  | (n, f) :: rest => goodName n && lstatWf f && wfList rest

end

/-! ### Path prefix-freedom, for the cache-coherence invariant -/

/-- A key suffix: empty, or starting at a path separator. -/
def goodSuffix (s : List Char) : Prop := s = [] ∨ ∃ r, s = '/' :: r

/-- The character prefix that `pathJoin q` prepends to a name. -/
def prefixData (q : String) : List Char :=
  if q = "" then [] else q.data ++ ['/']

/-- The keys a subtree scan rooted at `base` can write: renderings of a
list of well-formed name components below `base`. -/
def keyIn (base k : String) : Prop :=
  ∃ comps : List String, (∀ c ∈ comps, goodName c = true) ∧
    k = renderUnder base comps

/-- Cache coherence of one produced entry with respect to the subtree it
was scanned from: every File entry below it has well-formed path
components, was observed by a stat at its component path, and has an
output-cache entry at its rendered path carrying the observed mode,
modification time and size together with the entry's digest. -/
def coherentAt (t : FSTree) (base : String) (st2 : Cache) (e : Entry) :
    Prop :=
  ∀ comps e2, (comps, e2) ∈ filePairs e →
    (∀ c ∈ comps, goodName c = true) ∧
    ∃ info, statAtTree t comps = some info ∧
      lookupCache st2 (renderUnder base comps) =
        some ⟨info.mode, info.mtime, info.size, e2.Digest⟩

theorem splitAt?_eq_some (t : Char) :
    ∀ l a b, splitAt? t l = some (a, b) → l = a ++ t :: b ∧ t ∉ a := by
  intro l
  induction l with
  | nil => intro a b h; simp [splitAt?] at h
  | cons c rest ih =>
    intro a b h
    by_cases hc : c = t
    · rw [splitAt?, if_pos hc] at h
      obtain ⟨ha, hb⟩ := Prod.mk.injEq .. ▸ Option.some.injEq .. ▸ h
      subst hc
      simp [← ha, ← hb]
    · rw [splitAt?, if_neg hc] at h
      simp only [Option.map_eq_some'] at h
      obtain ⟨⟨p, q⟩, hpq, hab⟩ := h
      obtain ⟨ha, hb⟩ := Prod.mk.injEq .. ▸ hab
      subst hb
      obtain ⟨hl, hna⟩ := ih p q hpq
      subst ha
      refine ⟨by simp [hl], ?_⟩
      simp only [List.mem_cons]
      rintro (h | h)
      · exact hc h.symm
      · exact hna h

theorem splitAt?_eq_none (t : Char) :
    ∀ l, splitAt? t l = none → t ∉ l := by
  intro l
  induction l with
  | nil => intro _; simp
  | cons c rest ih =>
    intro h
    by_cases hc : c = t
    · simp [splitAt?, hc] at h
    · simp [splitAt?, hc] at h
      simp [ih h]
      exact fun hh => hc hh.symm

theorem splitAt?_append (t : Char) :
    ∀ a b, t ∉ a → splitAt? t (a ++ t :: b) = some (a, b) := by
  intro a
  induction a with
  | nil => intro b _; simp [splitAt?]
  | cons c rest ih =>
    intro b hmem
    have hc : ¬ c = t := by
      intro h; exact hmem (by simp [h])
    have hrest : t ∉ rest := by
      intro h; exact hmem (by simp [h])
    simp [splitAt?, hc, ih b hrest]

theorem splitAt?_of_not_mem (t : Char) :
    ∀ l, t ∉ l → splitAt? t l = none := by
  intro l
  induction l with
  | nil => intro _; simp [splitAt?]
  | cons c rest ih =>
    intro h
    have hc : ¬ c = t := by intro hh; exact h (by simp [hh])
    have hrest : t ∉ rest := by intro hh; exact h (by simp [hh])
    simp [splitAt?, hc, ih hrest]

theorem startsCSS_iff (l : List Char) :
    startsCSS l = true ↔ ∃ r, l = ':' :: '/' :: '/' :: r := by
  match l with
  | [] => simp [startsCSS]
  | [c] => simp [startsCSS]
  | [c, d] => simp [startsCSS]
  | c :: d :: e :: r =>
    simp only [startsCSS, Bool.and_eq_true, decide_eq_true_eq]
    constructor
    · rintro ⟨⟨rfl, rfl⟩, rfl⟩; exact ⟨r, rfl⟩
    · rintro ⟨r', h⟩
      injection h with h1 h
      injection h with h2 h
      injection h with h3 h
      exact ⟨⟨h1, h2⟩, h3⟩

theorem startsCSS_head3 (c d e : Char) (r r' : List Char) :
    startsCSS (c :: d :: e :: r) = startsCSS (c :: d :: e :: r') := by
  simp [startsCSS]

theorem hasCSS_cons (c : Char) (rest : List Char) :
    hasCSS (c :: rest) = (startsCSS (c :: rest) || hasCSS rest) := rfl

theorem hasCSS_append_right (a b : List Char) (h : hasCSS (a ++ b) = false) :
    hasCSS b = false := by
  induction a with
  | nil => exact h
  | cons c a' ih =>
    rw [List.cons_append, hasCSS_cons, Bool.or_eq_false_iff] at h
    exact ih h.2

theorem startsCSS_false_of_short (l : List Char) (h : l.length ≤ 2) :
    startsCSS l = false := by
  match l with
  | [] => rfl
  | [c] => rfl
  | [c, d] => rfl
  | c :: d :: e :: r => simp at h

theorem startsCSS_append_false (a b : List Char)
    (h : startsCSS (a ++ b) = false) : startsCSS a = false := by
  match a with
  | [] => rfl
  | [c] => rfl
  | [c, d] => rfl
  | c :: d :: e :: r =>
    rw [show (c :: d :: e :: r) ++ b = c :: d :: e :: (r ++ b) by simp] at h
    rw [startsCSS_head3 c d e r (r ++ b)]
    exact h

theorem hasCSS_append_left (a b : List Char) (h : hasCSS (a ++ b) = false) :
    hasCSS a = false := by
  induction a with
  | nil => rfl
  | cons c a' ih =>
    rw [List.cons_append, hasCSS_cons, Bool.or_eq_false_iff] at h
    rw [hasCSS_cons, Bool.or_eq_false_iff]
    exact ⟨startsCSS_append_false _ b h.1, ih h.2⟩

/-- No `://` appears in `a ++ ':' :: b` provided none appears in `a` or `b`
and `b` does not begin with `//`. -/
theorem hasCSS_append_colon (a b : List Char) (ha : hasCSS a = false)
    (hb : hasCSS b = false) (hbb : ∀ x, b ≠ '/' :: '/' :: x) :
    hasCSS (a ++ ':' :: b) = false := by
  induction a with
  | nil =>
    rw [List.nil_append, hasCSS_cons, Bool.or_eq_false_iff]
    refine ⟨?_, hb⟩
    match b, hbb with
    | [], _ => rfl
    | [c], _ => rfl
    | c :: d :: r, hbb =>
      by_cases hc : c = '/'
      · by_cases hd : d = '/'
        · exact absurd (by rw [hc, hd]) (hbb r)
        · simp [startsCSS, hd]
      · simp [startsCSS, hc]
  | cons c a' ih =>
    rw [hasCSS_cons, Bool.or_eq_false_iff] at ha
    rw [List.cons_append, hasCSS_cons, Bool.or_eq_false_iff]
    refine ⟨?_, ih ha.2⟩
    match a' with
    | [] =>
      match b with
      | [] => rfl
      | e :: r => simp [startsCSS]
    | [d] => simp [startsCSS]
    | d :: e :: r =>
      show startsCSS (c :: d :: e :: (r ++ ':' :: b)) = false
      rw [startsCSS_head3 c d e (r ++ ':' :: b) r]
      exact ha.1

/-- No `://` appears in `a ++ '@' :: b` provided none appears in `a` or `b`. -/
theorem hasCSS_append_at (a b : List Char) (ha : hasCSS a = false)
    (hb : hasCSS b = false) : hasCSS (a ++ '@' :: b) = false := by
  induction a with
  | nil =>
    rw [List.nil_append, hasCSS_cons, Bool.or_eq_false_iff]
    refine ⟨?_, hb⟩
    match b with
    | [] => rfl
    | [c] => rfl
    | c :: d :: r => simp [startsCSS]
  | cons c a' ih =>
    rw [hasCSS_cons, Bool.or_eq_false_iff] at ha
    rw [List.cons_append, hasCSS_cons, Bool.or_eq_false_iff]
    refine ⟨?_, ih ha.2⟩
    match a' with
    | [] =>
      match b with
      | [] => rfl
      | e :: r => simp [startsCSS]
    | [d] => simp [startsCSS]
    | d :: e :: r =>
      show startsCSS (c :: d :: e :: (r ++ '@' :: b)) = false
      rw [startsCSS_head3 c d e (r ++ '@' :: b) r]
      exact ha.1

/-- A list without `:` contains no `://`. -/
theorem hasCSS_of_no_colon (l : List Char) (h : ':' ∉ l) :
    hasCSS l = false := by
  induction l with
  | nil => rfl
  | cons c rest ih =>
    have hc : ¬ c = ':' := fun hh => h (by simp [hh])
    have hrest : ':' ∉ rest := fun hh => h (by simp [hh])
    rw [hasCSS_cons, Bool.or_eq_false_iff]
    refine ⟨?_, ih hrest⟩
    match rest with
    | [] => rfl
    | [d] => rfl
    | d :: e :: r => simp [startsCSS, hc]

theorem digitChar_isDecDigit (d : Nat) (h : d < 10) :
    isDecDigit (digitChar d) = true := by
  interval_cases d <;> decide

theorem digitChar_toNat (d : Nat) (h : d < 10) :
    (digitChar d).toNat = 48 + d := by
  interval_cases d <;> decide

theorem digitChar_ne_colon (d : Nat) (h : d < 10) : digitChar d ≠ ':' := by
  interval_cases d <;> decide

theorem digitChar_ne_at (d : Nat) (h : d < 10) : digitChar d ≠ '@' := by
  interval_cases d <;> decide

theorem natToDec_ne_nil (n : Nat) : natToDec n ≠ [] := by
  rw [natToDec]
  split <;> simp

theorem natToDec_all_digits (n : Nat) : allDecDigits (natToDec n) = true := by
  induction n using Nat.strong_induction_on with
  | _ n ih =>
    rw [natToDec]
    split
    · next h =>
      simp [allDecDigits, digitChar_isDecDigit n h]
    · next h =>
      have hd := ih (n / 10) (Nat.div_lt_self (by omega) (by omega))
      simp only [allDecDigits, List.all_append, Bool.and_eq_true] at hd ⊢
      exact ⟨hd, by
        simp [digitChar_isDecDigit (n % 10) (Nat.mod_lt n (by omega))]⟩

theorem decVal_append_digit (a : List Char) (c : Char) :
    decVal (a ++ [c]) = decVal a * 10 + (c.toNat - 48) := by
  simp [decVal, List.foldl_append]

theorem decVal_natToDec (n : Nat) : decVal (natToDec n) = n := by
  induction n using Nat.strong_induction_on with
  | _ n ih =>
    rw [natToDec]
    split
    · next h =>
      simp [decVal, digitChar_toNat n h]
    · next h =>
      rw [decVal_append_digit, ih (n / 10) (Nat.div_lt_self (by omega) (by omega)),
        digitChar_toNat (n % 10) (Nat.mod_lt n (by omega))]
      omega

theorem colon_not_mem_natToDec (n : Nat) : ':' ∉ natToDec n := by
  induction n using Nat.strong_induction_on with
  | _ n ih =>
    rw [natToDec]
    split
    · next h =>
      simp [digitChar_ne_colon n h]
      intro hh
      exact digitChar_ne_colon n h hh.symm
    · next h =>
      simp only [List.mem_append, List.mem_singleton]
      rintro (hh | hh)
      · exact ih (n / 10) (Nat.div_lt_self (by omega) (by omega)) hh
      · exact digitChar_ne_colon (n % 10) (Nat.mod_lt n (by omega)) hh.symm

theorem at_not_mem_natToDec (n : Nat) : '@' ∉ natToDec n := by
  induction n using Nat.strong_induction_on with
  | _ n ih =>
    rw [natToDec]
    split
    · next h =>
      simp
      intro hh
      exact digitChar_ne_at n h hh.symm
    · next h =>
      simp only [List.mem_append, List.mem_singleton]
      rintro (hh | hh)
      · exact ih (n / 10) (Nat.div_lt_self (by omega) (by omega)) hh
      · exact digitChar_ne_at (n % 10) (Nat.mod_lt n (by omega)) hh.symm

theorem hasCSS_natToDec (n : Nat) : hasCSS (natToDec n) = false :=
  hasCSS_of_no_colon _ (colon_not_mem_natToDec n)

/-! ### The URL test corpus (from the `url` package's test file)

Each case of `parse_test.go` in the provided sources, checked against the
model of `Parse`. -/

theorem parse_corpus_empty : Parse "".data = .error "empty".data := rfl

theorem parse_corpus_colon : (Parse ":".data).isOk = false := rfl

theorem parse_corpus_colon_path : (Parse ":path".data).isOk = false := rfl

theorem parse_corpus_user_empty_host : (Parse "user@:path".data).isOk = false := rfl

theorem parse_corpus_local_colon_path :
    Parse "/this/is/a:path".data =
      .ok { Protocol := .Local, Path := "/this/is/a:path".data } := rfl

theorem parse_corpus_user_host_no_colon :
    Parse "user@host".data =
      .ok { Protocol := .Local, Path := "user@host".data } := rfl

theorem parse_corpus_host_empty_path :
    Parse "host:".data =
      .ok { Protocol := .SSH, Hostname := "host".data } := rfl

theorem parse_corpus_host_path :
    Parse "host:path".data =
      .ok { Protocol := .SSH, Hostname := "host".data,
            Path := "path".data } := rfl

theorem parse_corpus_user_host_path :
    Parse "user@host:path".data =
      .ok { Protocol := .SSH, Username := "user".data,
            Hostname := "host".data, Path := "path".data } := rfl

theorem parse_corpus_colon_at_path_start :
    Parse "user@host::path".data =
      .ok { Protocol := .SSH, Username := "user".data,
            Hostname := "host".data, Path := ":path".data } := rfl

theorem parse_corpus_colon_in_path_middle :
    Parse "user@host:pa:th".data =
      .ok { Protocol := .SSH, Username := "user".data,
            Hostname := "host".data, Path := "pa:th".data } := rfl

theorem parse_corpus_colon_at_path_end :
    Parse "user@host:path:".data =
      .ok { Protocol := .SSH, Username := "user".data,
            Hostname := "host".data, Path := "path:".data } := rfl

theorem parse_corpus_at_in_hostname :
    Parse "user@ho@st:path".data =
      .ok { Protocol := .SSH, Username := "user".data,
            Hostname := "ho@st".data, Path := "path".data } := rfl

theorem parse_corpus_at_in_path :
    Parse "user@host:pa@th".data =
      .ok { Protocol := .SSH, Username := "user".data,
            Hostname := "host".data, Path := "pa@th".data } := rfl

theorem parse_corpus_max_port :
    Parse "user@host:65535:path".data =
      .ok { Protocol := .SSH, Username := "user".data,
            Hostname := "host".data, Port := 65535,
            Path := "path".data } := rfl

theorem parse_corpus_zero_port :
    Parse "user@host:0:path".data =
      .ok { Protocol := .SSH, Username := "user".data,
            Hostname := "host".data, Port := 0,
            Path := "path".data } := rfl

theorem parse_corpus_double_zero_port :
    Parse "user@host:00:path".data =
      .ok { Protocol := .SSH, Username := "user".data,
            Hostname := "host".data, Port := 0,
            Path := "path".data } := rfl

theorem parse_corpus_port_overflow :
    Parse "user@host:65536:path".data =
      .ok { Protocol := .SSH, Username := "user".data,
            Hostname := "host".data, Port := 0,
            Path := "65536:path".data } := rfl

theorem parse_corpus_non_numeric_port :
    Parse "user@host:aaa:path".data =
      .ok { Protocol := .SSH, Username := "user".data,
            Hostname := "host".data, Port := 0,
            Path := "aaa:path".data } := rfl

theorem parse_corpus_unicode :
    Parse "üsér@høst:пат".data =
      .ok { Protocol := .SSH, Username := "üsér".data,
            Hostname := "høst".data, Path := "пат".data } := rfl

theorem parse_corpus_unicode_port :
    Parse "üsér@høst:23:пат".data =
      .ok { Protocol := .SSH, Username := "üsér".data,
            Hostname := "høst".data, Port := 23,
            Path := "пат".data } := rfl

theorem parse_corpus_invalid_scheme :
    (Parse "5http://example.org/".data).isOk = false := rfl

theorem parse_corpus_custom :
    Parse "htt-...+p://example.org/".data =
      .ok { Protocol := .Custom,
            Path := "htt-...+p://example.org/".data } := rfl

/-! ### Facts about values that `Parse` can produce -/

theorem schemeOf_eq_none_iff (l : List Char) :
    schemeOf l = none ↔ hasCSS l = false := by
  induction l with
  | nil => simp [schemeOf, hasCSS]
  | cons c rest ih =>
    by_cases hs : startsCSS (c :: rest) = true
    · simp [schemeOf, hs, hasCSS_cons]
    · rw [Bool.not_eq_true] at hs
      simp [schemeOf, hs, hasCSS_cons, ih]

theorem parseHostAndPath_ok (raw username hap : List Char) (u : URL)
    (huser : '@' ∉ username) (husr_css : hasCSS username = false)
    (hhap : hasCSS hap = false)
    (h : parseHostAndPath raw username hap = .ok u) :
    u = { Protocol := .Local, Path := raw } ∨
      (SSHShape u ∧ u.Username = username) := by
  rw [parseHostAndPath] at h
  cases hcol : splitAt? ':' hap with
  | none =>
    rw [hcol] at h
    simp only [] at h
    left
    exact (Except.ok.injEq .. ▸ h).symm
  | some p =>
    obtain ⟨hostname, tail⟩ := p
    rw [hcol] at h
    simp only [] at h
    by_cases hsl : '/' ∈ hostname
    · rw [if_pos hsl] at h
      left
      exact (Except.ok.injEq .. ▸ h).symm
    · rw [if_neg hsl] at h
      by_cases hhn : hostname = []
      · rw [if_pos hhn] at h
        exact absurd h (by simp)
      · rw [if_neg hhn] at h
        right
        obtain ⟨hhap_eq, hcolon⟩ := splitAt?_eq_some ':' hap hostname tail hcol
        have hhn_css : hasCSS hostname = false := by
          rw [hhap_eq] at hhap
          exact hasCSS_append_left _ _ hhap
        have htail_css : hasCSS (':' :: tail) = false := by
          rw [hhap_eq] at hhap
          exact hasCSS_append_right _ _ hhap
        have htail_rest : hasCSS tail = false := by
          rw [hasCSS_cons, Bool.or_eq_false_iff] at htail_css
          exact htail_css.2
        have htail_noslash : ∀ x, tail ≠ '/' :: '/' :: x := by
          intro x hx
          rw [hasCSS_cons, Bool.or_eq_false_iff] at htail_css
          have := htail_css.1
          rw [hx] at this
          simp [startsCSS] at this
        have hu := (Except.ok.injEq .. ▸ h).symm
        subst hu
        cases hpt : portToken? tail with
        | none =>
          have hep : extractPort tail = (0, tail) := by
            rw [extractPort, hpt]; rfl
          rw [hep]
          exact ⟨⟨rfl, huser, hcolon, hsl, hhn, Nat.zero_le _, husr_css,
            hhn_css, htail_rest, htail_noslash⟩, rfl⟩
        | some pr =>
          obtain ⟨port, path⟩ := pr
          have hep : extractPort tail = (port, path) := by
            rw [extractPort, hpt]; rfl
          rw [hep]
          rw [portToken?] at hpt
          cases hc2 : splitAt? ':' tail with
          | none => rw [hc2] at hpt; exact absurd hpt (by simp)
          | some q =>
            obtain ⟨comp, rest⟩ := q
            rw [hc2] at hpt
            simp only [] at hpt
            by_cases hcond : (comp ≠ [] && allDecDigits comp &&
                decide (decVal comp ≤ 65535)) = true
            · rw [if_pos hcond] at hpt
              obtain ⟨hport, hpath⟩ := Prod.mk.injEq .. ▸
                Option.some.injEq .. ▸ hpt
              obtain ⟨htl_eq, _⟩ := splitAt?_eq_some ':' tail comp rest hc2
              have hrest_css : hasCSS (':' :: rest) = false := by
                rw [htl_eq] at htail_rest
                exact hasCSS_append_right _ _ htail_rest
              have hrest_noslash : ∀ x, rest ≠ '/' :: '/' :: x := by
                intro x hx
                rw [hasCSS_cons, Bool.or_eq_false_iff] at hrest_css
                have := hrest_css.1
                rw [hx] at this
                simp [startsCSS] at this
              have hrest_css2 : hasCSS rest = false := by
                rw [hasCSS_cons, Bool.or_eq_false_iff] at hrest_css
                exact hrest_css.2
              simp only [Bool.and_eq_true, decide_eq_true_eq] at hcond
              refine ⟨⟨rfl, huser, hcolon, hsl, hhn, ?_, husr_css, hhn_css,
                ?_, ?_⟩, rfl⟩
              · simp only [← hport]; exact hcond.2
              · simp only [← hpath]; exact hrest_css2
              · simp only [← hpath]; exact hrest_noslash
            · rw [if_neg hcond] at hpt
              exact absurd hpt (by simp)

/-- Every URL in the image of `Parse` is the plain Local or Custom record
over the original string, or an SSH record satisfying `SSHShape`. -/
theorem parse_characterization (s : List Char) (u : URL)
    (h : Parse s = .ok u) :
    u = { Protocol := .Local, Path := s } ∨
    u = { Protocol := .Custom, Path := s } ∨ SSHShape u := by
  by_cases hemp : s = []
  · simp [Parse, hemp] at h
  rw [Parse, if_neg hemp] at h
  cases hsch : schemeOf s with
  | some sc =>
    rw [hsch] at h
    simp only [] at h
    by_cases hv : validScheme sc = true
    · rw [if_pos hv] at h
      right; left
      exact (Except.ok.injEq .. ▸ h).symm
    · rw [if_neg hv] at h
      exact absurd h (by simp)
  | none =>
    rw [hsch] at h
    have hcss : hasCSS s = false := (schemeOf_eq_none_iff s).mp hsch
    cases hat : splitAt? '@' s with
    | none =>
      rw [hat] at h
      rcases parseHostAndPath_ok s [] s u (by simp) rfl hcss h with h' | h'
      · exact Or.inl h'
      · exact Or.inr (Or.inr h'.1)
    | some p =>
      obtain ⟨username, hap⟩ := p
      rw [hat] at h
      obtain ⟨hs_eq, hu_at⟩ := splitAt?_eq_some '@' s username hap hat
      have husr_css : hasCSS username = false := by
        rw [hs_eq] at hcss
        exact hasCSS_append_left _ _ hcss
      have hhap_css : hasCSS hap = false := by
        rw [hs_eq] at hcss
        have h2 := hasCSS_append_right _ _ hcss
        rw [hasCSS_cons, Bool.or_eq_false_iff] at h2
        exact h2.2
      rcases parseHostAndPath_ok s username hap u hu_at husr_css hhap_css h
        with h' | h'
      · exact Or.inl h'
      · exact Or.inr (Or.inr h'.1)

theorem natToDec_head_digit (n : Nat) :
    ∃ c r, natToDec n = c :: r ∧ isDecDigit c = true := by
  cases hc : natToDec n with
  | nil => exact absurd hc (natToDec_ne_nil n)
  | cons c r =>
    refine ⟨c, r, rfl, ?_⟩
    have := natToDec_all_digits n
    rw [hc] at this
    simp only [allDecDigits, List.all_cons, Bool.and_eq_true] at this
    exact this.1

theorem natToDec_append_no_dslash (n : Nat) (b : List Char) :
    ∀ x, natToDec n ++ b ≠ '/' :: '/' :: x := by
  intro x hx
  obtain ⟨c, r, hc, hd⟩ := natToDec_head_digit n
  rw [hc, List.cons_append] at hx
  injection hx with h1 _
  rw [h1] at hd
  exact absurd hd (by decide)

/-- Evaluation of `Parse` on a string with a username split. -/
theorem Parse_with_at (raw username hap : List Char) (hne : raw ≠ [])
    (hcss : hasCSS raw = false)
    (hat : splitAt? '@' raw = some (username, hap)) :
    Parse raw = parseHostAndPath raw username hap := by
  rw [Parse, if_neg hne, (schemeOf_eq_none_iff raw).mpr hcss, hat]

/-- Evaluation of `Parse` on a string without `@`. -/
theorem Parse_without_at (raw : List Char) (hne : raw ≠ [])
    (hcss : hasCSS raw = false) (hat : splitAt? '@' raw = none) :
    Parse raw = parseHostAndPath raw [] raw := by
  rw [Parse, if_neg hne, (schemeOf_eq_none_iff raw).mpr hcss, hat]

/-- Evaluation of `parseHostAndPath` in the SSH case. -/
theorem parseHostAndPath_ssh (raw username hap host T : List Char)
    (hcol : splitAt? ':' hap = some (host, T)) (hsl : '/' ∉ host)
    (hhn : host ≠ []) :
    parseHostAndPath raw username hap =
      .ok ⟨.SSH, username, host, (extractPort T).1, (extractPort T).2⟩ := by
  rw [parseHostAndPath, hcol]
  simp [hsl, hhn]

/-- Reparsing the SSH format of a URL whose fields satisfy the structural
facts of `SSHShape`, when additionally the `@`-freedom and port-token side
conditions hold, recovers the URL exactly. -/
theorem formatSSH_reparse (usr host : List Char) (port : Nat)
    (path : List Char)
    (husr_at : '@' ∉ usr) (hhost_colon : ':' ∉ host)
    (hhost_slash : '/' ∉ host) (hhost_ne : host ≠ [])
    (hport : port ≤ 65535) (husr_css : hasCSS usr = false)
    (hhost_css : hasCSS host = false) (hpath_css : hasCSS path = false)
    (hpath_noslash : ∀ x, path ≠ '/' :: '/' :: x)
    (h1 : usr = [] → '@' ∉ host ∧ '@' ∉ path)
    (h2 : port = 0 → portToken? path = none) :
    Parse (URL.formatSSH ⟨.SSH, usr, host, port, path⟩) =
      .ok ⟨.SSH, usr, host, port, path⟩ := by
  by_cases hp : port = 0
  case pos =>
    subst hp
    have hT : extractPort path = (0, path) := by
      rw [extractPort, h2 rfl]; rfl
    by_cases hu : usr = []
    · -- no username, no port
      subst hu
      have hF : URL.formatSSH ⟨.SSH, [], host, 0, path⟩ =
          host ++ ':' :: path := by
        simp [URL.formatSSH]
      have hcss : hasCSS (host ++ ':' :: path) = false :=
        hasCSS_append_colon _ _ hhost_css hpath_css hpath_noslash
      have hne : host ++ ':' :: path ≠ [] := by simp
      have hnoat : '@' ∉ host ++ ':' :: path := by
        obtain ⟨ha, hb⟩ := h1 rfl
        simp only [List.mem_append, List.mem_cons]
        rintro (h | h | h)
        · exact ha h
        · exact absurd h.symm (by decide)
        · exact hb h
      rw [hF, Parse_without_at _ hne hcss (splitAt?_of_not_mem '@' _ hnoat),
        parseHostAndPath_ssh _ _ _ host path
          (splitAt?_append ':' host path hhost_colon) hhost_slash hhost_ne,
        hT]
    · -- username, no port
      have hF : URL.formatSSH ⟨.SSH, usr, host, 0, path⟩ =
          usr ++ '@' :: (host ++ ':' :: path) := by
        simp [URL.formatSSH, hu]
      have hcss : hasCSS (host ++ ':' :: path) = false :=
        hasCSS_append_colon _ _ hhost_css hpath_css hpath_noslash
      have hcssF : hasCSS (usr ++ '@' :: (host ++ ':' :: path)) = false :=
        hasCSS_append_at _ _ husr_css hcss
      have hne : usr ++ '@' :: (host ++ ':' :: path) ≠ [] := by simp
      rw [hF, Parse_with_at _ usr _ hne hcssF
          (splitAt?_append '@' usr _ husr_at),
        parseHostAndPath_ssh _ _ _ host path
          (splitAt?_append ':' host path hhost_colon) hhost_slash hhost_ne,
        hT]
  case neg =>
    have hsplitT : splitAt? ':' (natToDec port ++ ':' :: path) =
        some (natToDec port, path) :=
      splitAt?_append ':' _ path (colon_not_mem_natToDec port)
    have hpt : portToken? (natToDec port ++ ':' :: path) =
        some (port, path) := by
      rw [portToken?, hsplitT]
      simp [natToDec_ne_nil port, natToDec_all_digits port,
        decVal_natToDec port, hport]
    have hT : extractPort (natToDec port ++ ':' :: path) = (port, path) := by
      rw [extractPort, hpt]; rfl
    have hT_css : hasCSS (natToDec port ++ ':' :: path) = false :=
      hasCSS_append_colon _ _ (hasCSS_natToDec port) hpath_css hpath_noslash
    have hT_noslash : ∀ x, natToDec port ++ ':' :: path ≠ '/' :: '/' :: x :=
      natToDec_append_no_dslash port _
    by_cases hu : usr = []
    · -- no username, port present
      subst hu
      have hF : URL.formatSSH ⟨.SSH, [], host, port, path⟩ =
          host ++ ':' :: (natToDec port ++ ':' :: path) := by
        simp [URL.formatSSH, hp]
      have hcss : hasCSS (host ++ ':' :: (natToDec port ++ ':' :: path)) =
          false :=
        hasCSS_append_colon _ _ hhost_css hT_css hT_noslash
      have hne : host ++ ':' :: (natToDec port ++ ':' :: path) ≠ [] := by
        simp
      have hnoat : '@' ∉ host ++ ':' :: (natToDec port ++ ':' :: path) := by
        obtain ⟨ha, hb⟩ := h1 rfl
        simp only [List.mem_append, List.mem_cons]
        rintro (h | h | h | h | h)
        · exact ha h
        · exact absurd h.symm (by decide)
        · exact at_not_mem_natToDec port h
        · exact absurd h.symm (by decide)
        · exact hb h
      rw [hF, Parse_without_at _ hne hcss (splitAt?_of_not_mem '@' _ hnoat),
        parseHostAndPath_ssh _ _ _ host (natToDec port ++ ':' :: path)
          (splitAt?_append ':' host _ hhost_colon) hhost_slash hhost_ne,
        hT]
    · -- username and port present
      have hF : URL.formatSSH ⟨.SSH, usr, host, port, path⟩ =
          usr ++ '@' :: (host ++ ':' :: (natToDec port ++ ':' :: path)) := by
        simp [URL.formatSSH, hu, hp]
      have hcss : hasCSS (host ++ ':' :: (natToDec port ++ ':' :: path)) =
          false :=
        hasCSS_append_colon _ _ hhost_css hT_css hT_noslash
      have hcssF : hasCSS
          (usr ++ '@' :: (host ++ ':' :: (natToDec port ++ ':' :: path))) =
          false :=
        hasCSS_append_at _ _ husr_css hcss
      have hne :
          usr ++ '@' :: (host ++ ':' :: (natToDec port ++ ':' :: path)) ≠
            [] := by simp
      rw [hF, Parse_with_at _ usr _ hne hcssF
          (splitAt?_append '@' usr _ husr_at),
        parseHostAndPath_ssh _ _ _ host (natToDec port ++ ':' :: path)
          (splitAt?_append ':' host _ hhost_colon) hhost_slash hhost_ne,
        hT]

/-- Claim C8, counterexample to the claim as stated: the URL value
`c8url = ⟨SSH, "", "host", 0, "0:path"⟩` is produced by `Parse` from the
input `"host:0:0:path"` (the first `0` component is taken as an explicit
port 0 and the rest is the path), but `Format` omits a zero port, so the
formatted string `"host:0:path"` reparses with path `"path"`, not
`"0:path"`. Hence `Parse (Format u) ≠ u` for this member of the image of
`Parse`. -/
theorem c8_counterexample :
    Parse ('h' :: 'o' :: 's' :: 't' :: ':' :: '0' :: ':' :: '0' :: ':' ::
        'p' :: 'a' :: 't' :: 'h' :: []) = .ok c8url ∧
    Parse c8url.Format ≠ .ok c8url := by
  exact ⟨rfl, by decide⟩

/-- Claim C8 (amended): for every URL `u` that `Parse` produces from some
input, `Parse (Format u) = u` holds provided that, when `u` is an SSH URL,
(a) if its username is empty then neither its hostname nor its path
contains `@`, and (b) if its port is 0 then its path does not begin with a
parseable port component (a non-empty all-decimal segment of value at most
65535 followed by `:`). The counterexample above shows condition (b) is
necessary; condition (a) is necessary for inputs such as `"@ho@st:path"`.
Local and Custom URLs round-trip unconditionally. -/
theorem c8_parse_format_roundtrip_amended (s : List Char) (u : URL)
    (h : Parse s = .ok u)
    (h1 : u.Protocol = .SSH → u.Username = [] →
      '@' ∉ u.Hostname ∧ '@' ∉ u.Path)
    (h2 : u.Protocol = .SSH → u.Port = 0 → portToken? u.Path = none) :
    Parse u.Format = .ok u := by
  rcases parse_characterization s u h with rfl | rfl | hs
  · exact h
  · exact h
  · obtain ⟨p, usr, host, port, path⟩ := u
    obtain ⟨hp, husr, hcol, hsl, hne, hport, hucss, hhcss, hpcss, hnos⟩ := hs
    simp only at hp
    subst hp
    exact formatSSH_reparse usr host port path husr hcol hsl hne hport
      hucss hhcss hpcss hnos (h1 rfl) (h2 rfl)

/-- Witness for the amended C8: the SSH URL parsed from
`"user@host:22:path"` satisfies both side conditions and round-trips. -/
theorem c8_witness : Parse (URL.Format c8wurl) = .ok c8wurl :=
  c8_parse_format_roundtrip_amended
    ('u' :: 's' :: 'e' :: 'r' :: '@' :: 'h' :: 'o' :: 's' :: 't' :: ':' ::
      '2' :: '2' :: ':' :: 'p' :: 'a' :: 't' :: 'h' :: []) _ rfl
    (by intro _ hu; exact absurd hu (by decide))
    (by intro _ hp; exact absurd hp (by decide))

/-- Claim C9: `connect` on a URL whose protocol is neither Local nor SSH
(which, over the three declared protocol values, means Custom) constructs
no endpoint and returns an error whose message contains the protocol
value; on Local it builds the in-process endpoint from the URL path; on
SSH it dials the agent transport and builds a remote endpoint on the
connection, wrapping any failure. -/
theorem c9_connect_dispatch (E C : Type) (ops : ConnectOps E C)
    (session : String) (version : Nat) (url : URL) (ignores : List String)
    (alpha : Bool) (prompter : String) :
    (url.Protocol ≠ .Local → url.Protocol ≠ .SSH →
      connect ops session version url ignores alpha prompter =
        .error ("unknown protocol: ".data ++ protocolName url.Protocol) ∧
      ∃ a b, "unknown protocol: ".data ++ protocolName url.Protocol =
        a ++ protocolName url.Protocol ++ b) ∧
    (url.Protocol = .Local →
      connect ops session version url ignores alpha prompter =
        match ops.newLocalEndpoint session version url.Path ignores alpha with
        | .error e =>
          .error (wrapErr "unable to create local endpoint".data e)
        | .ok endpoint => .ok endpoint) ∧
    (url.Protocol = .SSH →
      connect ops session version url ignores alpha prompter =
        match ops.dialSSH url prompter with
        | .error e =>
          .error (wrapErr "unable to connect to SSH remote".data e)
        | .ok connection =>
          match ops.newRemoteEndpoint connection session version url.Path
              ignores alpha with
          | .error e =>
            .error (wrapErr "unable to create remote endpoint".data e)
          | .ok endpoint => .ok endpoint) := by
  refine ⟨fun hl hs => ⟨?_, "unknown protocol: ".data, [], by simp⟩,
    fun hl => ?_, fun hs => ?_⟩
  · rw [connect, if_neg hl, if_neg hs]
  · rw [connect, if_pos hl]
  · have hl : url.Protocol ≠ .Local := by rw [hs]; simp
    rw [connect, if_neg hl, if_pos hs]

/-- Witness for C9 at a concrete Custom URL: the error names the
protocol. -/
theorem c9_witness :
    connect c9ops "s" 1 { Protocol := .Custom, Path := [] } [] true "" =
      .error ("unknown protocol: ".data ++ protocolName .Custom) :=
  ((c9_connect_dispatch Nat Nat c9ops "s" 1
      { Protocol := .Custom, Path := [] } [] true "").1
    (by decide) (by decide)).1

/-! ### Claim C1 -/

/-- Claim C1, counterexample to the claim as stated: a cache entry under
the scanned path whose mode type bits, size and modification time all
match the current stat, but whose digest is the nil byte slice. The
claim's conditions for a hit hold, yet `scanner.file` still opens the
file — observable because an open failure makes it fail. The source
checks `digest == nil` after the metadata comparison, so a matching entry
with a nil digest is rehashed, not reused. -/
theorem c1_counterexample :
    lookupCache c1s.cache "f" = some ⟨0o644, 5, 3, []⟩ ∧
    cacheMatch ⟨0o644, 5, 3, []⟩ ⟨0o644, 5, 3⟩ = true ∧
    scanner.file c1s "f" ⟨0o644, 5, 3⟩ .openErr [] =
      .error "unable to open file".data :=
  ⟨rfl, rfl, rfl⟩

/-- Claim C1 (amended): the cached digest is reused — verbatim, and
without consulting the file content at all — iff the input cache has an
entry at the path whose mode type bits, size and modification time equal
the current stat's *and whose digest is non-empty*; otherwise (mismatch,
absent entry, or nil cached digest) the file is opened (an open failure
surfaces as an error) and rehashed (the produced digest is the hasher's
digest of the content). -/
theorem c1_cache_hit_amended (s : scanner) (path : String) (info : StatInfo)
    (st : Cache) :
    (∀ cached, lookupCache s.cache path = some cached →
      cacheMatch cached info = true → cached.Digest ≠ [] →
      ∀ content, scanner.file s path info content st =
        .ok (Entry.mk .File ((info.mode &&& AnyExecutablePermission) != 0)
            cached.Digest "" [],
          insertCache st path
            ⟨info.mode, info.mtime, info.size, cached.Digest⟩)) ∧
    (s.cachedDigest path info = [] →
      scanner.file s path info .openErr st =
        .error "unable to open file".data ∧
      ∀ b, b.length = info.size →
        scanner.file s path info (.bytes b) st =
          .ok (Entry.mk .File ((info.mode &&& AnyExecutablePermission) != 0)
              (s.hasher b) "" [],
            insertCache st path
              ⟨info.mode, info.mtime, info.size, s.hasher b⟩)) := by
  constructor
  · intro cached hlook hmatch hne content
    have hdig : s.cachedDigest path info = cached.Digest := by
      rw [scanner.cachedDigest, hlook]
      simp [hmatch]
    simp only [scanner.file, hdig, if_neg hne]
  · intro hmiss
    constructor
    · simp only [scanner.file, hmiss]
      simp
    · intro b hb
      simp only [scanner.file, hmiss]
      simp [hb]

/-- Witness for the amended C1: a valid hit with non-empty digest `[9]`
reuses the digest even when opening the file would fail. -/
theorem c1_witness :
    scanner.file c1ws "f" ⟨0o644, 5, 3⟩ .openErr [] =
      .ok (Entry.mk .File false [9] "" [], [("f", ⟨0o644, 5, 3, [9]⟩)]) :=
  (c1_cache_hit_amended c1ws "f" ⟨0o644, 5, 3⟩ []).1
    ⟨0o644, 5, 3, [9]⟩ rfl rfl (by decide) .openErr

/-! ### Claim C3 -/

/-- Claim C3, counterexample to the claim as stated: with the malformed
ignore pattern `"["` the ignorer fails to compile, and `Scan` returns
that error even though the root does not exist — the ignorer is built
before the root is examined. So a missing root is *not* a successful
empty scan for every ignore list. -/
theorem c3_counterexample :
    Scan .notFound hashLen none ["["] 0 =
      .error (wrapErr "unable to create ignorer".data
        "unable to parse ignore pattern".data) := rfl

/-- Claim C3 (amended): if the root does not exist, then for every
hasher, every input cache, every *well-formed* (compiling) ignore list
and every size limit, `Scan` returns a nil entry, an empty cache and no
error. -/
theorem c3_missing_root_amended (hasher : List Nat → List Nat)
    (cache : Option Cache) (ignores : List String) (ignoreSize : Nat)
    (pats : List IgnorePattern)
    (hig : newPathIgnorer ignores = .ok pats) :
    Scan .notFound hasher cache ignores ignoreSize = .ok (none, []) := by
  rw [Scan, hig]

/-- Witness for the amended C3 with the ignore list `["*.log"]`. -/
theorem c3_witness :
    Scan .notFound hashLen none ["*.log"] 0 = .ok (none, []) :=
  c3_missing_root_amended hashLen none ["*.log"] 0
    [⟨false, [.star, .lit '.', .lit 'l', .lit 'o', .lit 'g']⟩] rfl

/-! ### Claim C4 -/

/-- Claim C4: when `scanner.file` actually hashes (the digest pulled from
the cache is nil), it fails iff the open or the copy fails or the number
of bytes streamed through the hasher differs from the stat size; and such
a mismatch at the root propagates: the entire `Scan` fails with the
`hashed size mismatch` error. -/
theorem c4_hash_size_mismatch (s : scanner) (path : String)
    (info : StatInfo) (content : ReadOutcome) (st : Cache)
    (hmiss : s.cachedDigest path info = []) :
    ((∃ e, scanner.file s path info content st = .error e) ↔
      ∀ b, content = .bytes b → b.length ≠ info.size) ∧
    (path = "" → ∀ b, content = .bytes b → b.length ≠ info.size →
      info.mode &&& ModeDir = 0 → info.mode &&& ModeType = 0 →
      ∀ listing target ignores,
        newPathIgnorer ignores = .ok s.pathIgnorer →
        Scan (.found (.mk info content listing target)) s.hasher
            (some s.cache) ignores s.ignoreSize =
          .error "hashed size mismatch".data) := by
  have hfile : scanner.file s path info content st =
      match content with
      | .openErr => .error "unable to open file".data
      | .readErr _ => .error "unable to hash file contents".data
      | .bytes b =>
        if b.length = info.size then
          .ok (Entry.mk .File ((info.mode &&& AnyExecutablePermission) != 0)
              (s.hasher b) "" [],
            insertCache st path
              ⟨info.mode, info.mtime, info.size, s.hasher b⟩)
        else .error "hashed size mismatch".data := by
    simp only [scanner.file, hmiss]
    cases content with
    | openErr => simp
    | readErr r => simp
    | bytes b =>
      by_cases hb : b.length = info.size
      · simp [hb]
      · simp [hb]
  constructor
  · rw [hfile]
    cases content with
    | openErr => simp
    | readErr r => simp
    | bytes b =>
      by_cases hb : b.length = info.size
      · simp [hb]
      · simp [hb]
  · rintro rfl b rfl hb hdir htype listing target ignores hig
    have hs : (⟨s.hasher, (some s.cache).getD [], s.pathIgnorer,
        s.ignoreSize⟩ : scanner) = s := rfl
    simp only [Scan, hig, FSTree.info, FSTree.content, hs]
    rw [if_neg (by simp [hdir]), if_neg (by simp [htype])]
    simp only [scanner.file, hmiss]
    simp [hb]

/-- Witness for C4: a miss on an empty cache with a one-byte read against
a stat size of 2 fails, and the failure is the scan-level size mismatch
error. -/
theorem c4_witness :
    (∃ e, scanner.file ⟨hashLen, [], [], 0⟩ "" ⟨0o644, 5, 2⟩
      (.bytes [9]) [] = .error e) ∧
    Scan (.found (.mk ⟨0o644, 5, 2⟩ (.bytes [9]) none none)) hashLen
        (some []) [] 0 =
      .error "hashed size mismatch".data := by
  constructor
  · refine (c4_hash_size_mismatch ⟨hashLen, [], [], 0⟩ "" ⟨0o644, 5, 2⟩
      (.bytes [9]) [] rfl).1.mpr ?_
    intro b hb
    injection hb with hb2
    rw [← hb2]
    decide
  · exact (c4_hash_size_mismatch ⟨hashLen, [], [], 0⟩ "" ⟨0o644, 5, 2⟩
      (.bytes [9]) [] rfl).2 rfl [9] rfl (by decide) (by decide) (by decide)
      none none [] rfl

/-! ### Claim C5 -/

/-- Claim C5: a listed child whose lstat reports not-found is skipped and
the traversal continues as if it were not listed at all (whether or not
it is ignored); a child that is not ignored and whose lstat fails with
any other error aborts with the stat error, and that abort propagates out
of the enclosing directory. -/
theorem c5_stat_race (s : scanner) (q name : String)
    (rest : List (String × Lstat FSTree)) (acc : List (String × Entry))
    (st : Cache) :
    scanner.children s q ((name, .notFound) :: rest) acc st =
      scanner.children s q rest acc st ∧
    (ignored s.pathIgnorer (pathJoin q name) = false →
      scanner.children s q ((name, .ioErr) :: rest) acc st =
        .error "unable to stat directory content".data ∧
      ∀ info content target,
        scanner.directory s q
            (.mk info content (some ((name, .ioErr) :: rest)) target) st =
          .error "unable to stat directory content".data) := by
  constructor
  · by_cases hi : ignored s.pathIgnorer (pathJoin q name) = true
    · simp only [scanner.children]
      simp [hi]
    · rw [Bool.not_eq_true] at hi
      simp only [scanner.children]
      simp [hi]
  · intro hi
    have hch : ∀ acc2 st2,
        scanner.children s q ((name, .ioErr) :: rest) acc2 st2 =
          .error "unable to stat directory content".data := by
      intro acc2 st2
      simp only [scanner.children]
      simp [hi]
    refine ⟨hch acc st, fun info content target => ?_⟩
    simp only [scanner.directory, hch [] st]

/-- Witness for C5 at a concrete child list: a vanished `"gone"` child is
skipped, and a stat error on `"bad"` aborts the directory. -/
theorem c5_witness :
    scanner.children ⟨hashLen, [], [], 0⟩ "" [("gone", .notFound)] [] [] =
      scanner.children ⟨hashLen, [], [], 0⟩ "" [] [] [] ∧
    scanner.directory ⟨hashLen, [], [], 0⟩ ""
        (.mk ⟨ModeDir, 7, 0⟩ .openErr (some [("bad", .ioErr)]) none) [] =
      .error "unable to stat directory content".data :=
  ⟨(c5_stat_race ⟨hashLen, [], [], 0⟩ "" "gone" [] [] []).1,
    ((c5_stat_race ⟨hashLen, [], [], 0⟩ "" "bad" [] [] []).2 rfl).2
      ⟨ModeDir, 7, 0⟩ .openErr none⟩

/-! ### Claim C6 -/

/-- Claim C6, counterexample to the claim as stated: the child `"a"` of
`c6dir` is a regular file of size 1 scanned with `size_limit = 0`, so the
claimed condition for skipping (`size_limit > 0` and size at least the
limit) is false — yet the child is absent from the snapshot and from the
output cache, because it is matched by the ignore pattern `"a"`. The
"only if" direction of the claim therefore fails for ignored children. -/
theorem c6_counterexample :
    Scan (.found c6dir) hashLen none ["a"] 0 =
      .ok (some (Entry.mk .Directory false [] "" []), []) ∧
    ¬ ((0 : Nat) > 0 ∧ (1 : Nat) ≥ 0) :=
  ⟨rfl, by simp⟩

/-- Claim C6 (amended): among directory children that are *not ignored*
and whose lstat finds them, a regular-file child is skipped by the size
filter iff `size_limit > 0` and its size is at least `size_limit` (in
particular `size_limit = 0` never filters); otherwise it is processed by
`scanner.file`. Directory and symlink children are dispatched without
ever consulting the size filter. -/
theorem c6_size_filter_amended (s : scanner) (q name : String) (t : FSTree)
    (rest : List (String × Lstat FSTree)) (acc : List (String × Entry))
    (st : Cache)
    (hig : ignored s.pathIgnorer (pathJoin q name) = false) :
    (t.info.mode &&& ModeDir = 0 → t.info.mode &&& ModeSymlink = 0 →
      t.info.mode &&& ModeType = 0 →
      (s.ignoreSize > 0 ∧ t.info.size ≥ s.ignoreSize →
        scanner.children s q ((name, .found t) :: rest) acc st =
          scanner.children s q rest acc st) ∧
      (¬ (s.ignoreSize > 0 ∧ t.info.size ≥ s.ignoreSize) →
        scanner.children s q ((name, .found t) :: rest) acc st =
          match scanner.file s (pathJoin q name) t.info t.content st with
          | .error e => .error e
          | .ok (entry, nc) =>
            scanner.children s q rest ((name, entry) :: acc) nc)) ∧
    (t.info.mode &&& ModeDir ≠ 0 →
      scanner.children s q ((name, .found t) :: rest) acc st =
        match scanner.directory s (pathJoin q name) t st with
        | .error e => .error e
        | .ok (entry, nc) =>
          scanner.children s q rest ((name, entry) :: acc) nc) ∧
    (t.info.mode &&& ModeDir = 0 → t.info.mode &&& ModeSymlink ≠ 0 →
      scanner.children s q ((name, .found t) :: rest) acc st =
        match scanner.symlink s (pathJoin q name) t.target with
        | .error e => .error e
        | .ok entry =>
          scanner.children s q rest ((name, entry) :: acc) st) := by
  refine ⟨fun hdir hsym htype => ⟨fun hsz => ?_, fun hsz => ?_⟩,
    fun hdir => ?_, fun hdir hsym => ?_⟩
  · simp only [scanner.children]
    simp [hig, hdir, hsym, htype, hsz]
  · simp only [scanner.children]
    simp [hig, hdir, hsym, htype, hsz]
  · simp only [scanner.children]
    simp [hig, hdir]
  · simp only [scanner.children]
    simp [hig, hdir, hsym, symlinksSupported]

/-- Witness for the amended C6: with `size_limit = 2` a regular-file
child of size 1 is processed by `scanner.file`, and a directory child is
recursed into regardless of its size. -/
theorem c6_witness :
    scanner.children ⟨hashLen, [], [], 2⟩ "" [("a", .found smallFile)] [] [] =
      (match scanner.file ⟨hashLen, [], [], 2⟩ "a" smallFile.info
          smallFile.content [] with
        | .error e => .error e
        | .ok (entry, nc) =>
          scanner.children ⟨hashLen, [], [], 2⟩ "" [] [("a", entry)] nc) :=
  (((c6_size_filter_amended ⟨hashLen, [], [], 2⟩ "" "a" smallFile [] [] []
      rfl).1 rfl rfl rfl).2 (by decide))

/-! ### Claim C10 -/

/-- Claim C10, counterexample to the claim as stated: a root that is a
perfectly readable regular file is not returned as a File entry when the
ignore list contains the malformed pattern `"["` — `Scan` fails while
compiling the ignorer, for every root. So the root's fate is not
independent of the ignore list. -/
theorem c10_counterexample :
    Scan (.found smallFile) hashLen none ["["] 7 =
      .error (wrapErr "unable to create ignorer".data
        "unable to parse ignore pattern".data) := rfl

/-- Claim C10 (amended): ignore patterns and the size limit are never
applied to the scan root itself. For every compiling ignore list, every
size limit, and every input cache, a root that is a regular file whose
hashing can succeed (its content reads fully with the stat-reported
size) is scanned by `scanner.file` and returned as a File entry, with a
cache entry keyed by the empty relative path — even when the size limit
is smaller than the file and patterns matching the whole tree are
given. -/
theorem c10_root_file_amended (hasher : List Nat → List Nat)
    (cache : Option Cache) (ignores : List String) (ignoreSize : Nat)
    (pats : List IgnorePattern) (info : StatInfo)
    (listing : Option (List (String × Lstat FSTree)))
    (target : Option String) (b : List Nat)
    (hig : newPathIgnorer ignores = .ok pats)
    (hdir : info.mode &&& ModeDir = 0) (htype : info.mode &&& ModeType = 0)
    (hlen : b.length = info.size) :
    ∃ d, Scan (.found (.mk info (.bytes b) listing target)) hasher cache
        ignores ignoreSize =
      .ok (some (Entry.mk .File ((info.mode &&& AnyExecutablePermission) != 0)
          d "" []),
        [("", ⟨info.mode, info.mtime, info.size, d⟩)]) := by
  simp only [Scan, hig, FSTree.info, FSTree.content]
  rw [if_neg (by simp [hdir]), if_neg (by simp [htype])]
  set s : scanner := ⟨hasher, cache.getD [], pats, ignoreSize⟩ with hs
  by_cases hmiss : s.cachedDigest "" info = []
  · refine ⟨s.hasher b, ?_⟩
    simp only [scanner.file, hmiss]
    simp [hlen, insertCache]
  · refine ⟨s.cachedDigest "" info, ?_⟩
    simp only [scanner.file, if_neg hmiss]
    simp [insertCache]

/-- Witness for the amended C10: a regular-file root is hashed and
returned even with an everything-matching ignore list and a size limit
smaller than the file. -/
theorem c10_witness :
    ∃ d, Scan (.found smallFile) hashLen none ["*"] 1 =
      .ok (some (Entry.mk .File false d "" []),
        [("", ⟨0o644, 5, 1, d⟩)]) :=
  c10_root_file_amended hashLen none ["*"] 1 [⟨false, [.star]⟩]
    ⟨0o644, 5, 1⟩ none none [9] rfl (by decide) (by decide) (by decide)

theorem mem_filePairsList (cts : List (String × Entry)) (n : String)
    (e : Entry) (comps : List String) (e2 : Entry) (h1 : (n, e) ∈ cts)
    (h2 : (comps, e2) ∈ filePairs e) :
    (n :: comps, e2) ∈ filePairsList cts := by
  induction cts with
  | nil => simp at h1
  | cons p rest ih =>
    obtain ⟨np, ep⟩ := p
    rw [List.mem_cons] at h1
    rw [filePairsList, List.mem_append]
    rcases h1 with h1 | h1
    · left
      obtain ⟨hn, he⟩ := Prod.mk.injEq .. ▸ h1
      subst hn; subst he
      exact List.mem_map.mpr ⟨(comps, e2), h2, rfl⟩
    · right
      exact ih h1

theorem renderUnder_cons (q : String) (n : String) (comps : List String) :
    renderUnder q (n :: comps) = renderUnder (pathJoin q n) comps := rfl

mutual

/-- Every pair collected by `filePairs` is a File entry. -/
theorem filePairs_kind_entry (e : Entry) :
    ∀ comps e2, (comps, e2) ∈ filePairs e → e2.Kind = .File := by
  match e with
  | .mk .File ex d tg c =>
    intro comps e2 h
    rw [filePairs] at h
    rcases List.mem_singleton.mp h with h2
    obtain ⟨_, he⟩ := Prod.mk.injEq .. ▸ h2
    subst he
    rfl
  | .mk .Directory ex d tg contents =>
    intro comps e2 h
    rw [filePairs] at h
    exact filePairs_kind_list contents comps e2 h
  | .mk .Symlink ex d tg c =>
    intro comps e2 h
    rw [filePairs] at h
    simp at h

/-- Every pair collected by `filePairsList` is a File entry. -/
theorem filePairs_kind_list (cts : List (String × Entry)) :
    ∀ comps e2, (comps, e2) ∈ filePairsList cts → e2.Kind = .File := by
  match cts with
  | [] =>
    intro comps e2 h
    rw [filePairsList] at h
    simp at h
  | (n, e) :: rest =>
    intro comps e2 h
    rw [filePairsList] at h
    rcases List.mem_append.mp h with h | h
    · obtain ⟨⟨c1, e1⟩, hmem, heq⟩ := List.mem_map.mp h
      obtain ⟨_, he⟩ := Prod.mk.injEq .. ▸ heq
      exact filePairs_kind_entry e c1 e2 (he ▸ hmem)
    · exact filePairs_kind_list rest comps e2 h

end

theorem cacheKeys_insert (st : Cache) (p : String) (ce : CacheEntry) :
    cacheKeys (insertCache st p ce) = p :: cacheKeys st := rfl

/-- A successful `scanner.file` call produces a File entry and extends
the output cache with exactly one entry, keyed by the scanned path and
carrying the observed mode, mtime and size together with the entry's
digest. -/
theorem scanner_file_ok (s : scanner) (p : String) (info : StatInfo)
    (content : ReadOutcome) (st : Cache) (e : Entry) (nc : Cache)
    (h : scanner.file s p info content st = .ok (e, nc)) :
    ∃ d, e = Entry.mk .File ((info.mode &&& AnyExecutablePermission) != 0)
        d "" [] ∧
      nc = insertCache st p ⟨info.mode, info.mtime, info.size, d⟩ := by
  simp only [scanner.file] at h
  split at h
  · exact absurd h (by simp)
  · next d heq =>
    obtain ⟨he, hnc⟩ := Prod.mk.injEq .. ▸ Except.ok.injEq .. ▸ h
    exact ⟨d, he.symm, hnc.symm⟩

/-- A successful `scanner.symlink` call produces a Symlink entry. -/
theorem scanner_symlink_ok (s : scanner) (p : String)
    (target : Option String) (e : Entry)
    (h : scanner.symlink s p target = .ok e) :
    ∃ tg, e = Entry.mk .Symlink false [] tg [] := by
  cases target with
  | none =>
    simp only [scanner.symlink] at h
    exact absurd h (by simp)
  | some t =>
    simp only [scanner.symlink] at h
    by_cases ht : t = ""
    · rw [if_pos ht] at h
      simp at h
    · rw [if_neg ht] at h
      exact ⟨t, (Except.ok.injEq .. ▸ h).symm⟩

/-! Definitional unfolding equations of the scanner, each holding by
`rfl`; they spell out what one step of the traversal does and are the
form in which the invariant proofs below consume the definitions. -/

theorem children_nil_eq (s : scanner) (q : String)
    (acc : List (String × Entry)) (st : Cache) :
    scanner.children s q [] acc st = .ok (acc, st) := rfl

theorem children_cons_notFound (s : scanner) (q name : String)
    (rest : List (String × Lstat FSTree)) (acc : List (String × Entry))
    (st : Cache) :
    scanner.children s q ((name, .notFound) :: rest) acc st =
      if ignored s.pathIgnorer (pathJoin q name) then
        scanner.children s q rest acc st
      else scanner.children s q rest acc st := rfl

theorem children_cons_ioErr (s : scanner) (q name : String)
    (rest : List (String × Lstat FSTree)) (acc : List (String × Entry))
    (st : Cache) :
    scanner.children s q ((name, .ioErr) :: rest) acc st =
      if ignored s.pathIgnorer (pathJoin q name) then
        scanner.children s q rest acc st
      else .error "unable to stat directory content".data := rfl

theorem children_cons_found (s : scanner) (q name : String) (t : FSTree)
    (rest : List (String × Lstat FSTree)) (acc : List (String × Entry))
    (st : Cache) :
    scanner.children s q ((name, .found t) :: rest) acc st =
      if ignored s.pathIgnorer (pathJoin q name) then
        scanner.children s q rest acc st
      else if t.info.mode &&& ModeDir ≠ 0 then
        match scanner.directory s (pathJoin q name) t st with
        | .error e => .error e
        | .ok (entry, nc) =>
          scanner.children s q rest ((name, entry) :: acc) nc
      else if t.info.mode &&& ModeSymlink ≠ 0 then
        if symlinksSupported then
          match scanner.symlink s (pathJoin q name) t.target with
          | .error e => .error e
          | .ok entry =>
            scanner.children s q rest ((name, entry) :: acc) st
        else scanner.children s q rest acc st
      else if t.info.mode &&& ModeType ≠ 0 then
        scanner.children s q rest acc st
      else if s.ignoreSize > 0 ∧ t.info.size ≥ s.ignoreSize then
        scanner.children s q rest acc st
      else
        match scanner.file s (pathJoin q name) t.info t.content st with
        | .error e => .error e
        | .ok (entry, nc) =>
          scanner.children s q rest ((name, entry) :: acc) nc := rfl

theorem directory_none_eq (s : scanner) (q : String) (i : StatInfo)
    (c : ReadOutcome) (tg : Option String) (st : Cache) :
    scanner.directory s q (.mk i c none tg) st =
      .error "unable to read directory contents".data := rfl

theorem directory_some_eq (s : scanner) (q : String) (i : StatInfo)
    (c : ReadOutcome) (ents : List (String × Lstat FSTree))
    (tg : Option String) (st : Cache) :
    scanner.directory s q (.mk i c (some ents) tg) st =
      match scanner.children s q ents [] st with
      | .error e => .error e
      | .ok (contents, nc) =>
        .ok (Entry.mk .Directory false [] "" contents, nc) := rfl

/-- Output-cache key scoping, by strong induction on a size bound: every
key of the cache produced by a directory scan or by the per-child loop
was already present or is the rendering of the component path of a File
entry reachable in the produced entries; and the per-child loop preserves
its accumulated entries. -/
theorem c7_strong (n : Nat) :
    (∀ (s : scanner) (q : String) (t : FSTree) (st : Cache) (entry : Entry)
        (st2 : Cache), sizeOf t ≤ n →
      scanner.directory s q t st = .ok (entry, st2) →
      ∀ k ∈ cacheKeys st2, k ∈ cacheKeys st ∨
        ∃ comps e2, (comps, e2) ∈ filePairs entry ∧
          k = renderUnder q comps) ∧
    (∀ (s : scanner) (q : String) (ents : List (String × Lstat FSTree))
        (acc : List (String × Entry)) (st : Cache)
        (cts : List (String × Entry)) (st2 : Cache), sizeOf ents ≤ n →
      scanner.children s q ents acc st = .ok (cts, st2) →
      (∀ p ∈ acc, p ∈ cts) ∧
      ∀ k ∈ cacheKeys st2, k ∈ cacheKeys st ∨
        ∃ n2 e comps e2, (n2, e) ∈ cts ∧ (comps, e2) ∈ filePairs e ∧
          k = renderUnder (pathJoin q n2) comps) := by
  induction n with
  | zero =>
    constructor
    · intro s q t st entry st2 hn
      exact absurd hn (by cases t; simp_arith)
    · intro s q ents acc st cts st2 hn
      exact absurd hn (by cases ents <;> simp_arith)
  | succ n ih =>
    obtain ⟨ihdir, ihch⟩ := ih
    constructor
    · intro s q t st entry st2 hn h
      cases t with
      | mk i c l tg =>
        cases l with
        | none =>
          rw [directory_none_eq] at h
          exact absurd h (by simp)
        | some ents =>
          rw [directory_some_eq] at h
          have hsz : sizeOf ents ≤ n := by
            simp_arith at hn
            omega
          cases hch : scanner.children s q ents [] st with
          | error e =>
            rw [hch] at h
            exact absurd h (by simp)
          | ok r =>
            obtain ⟨cts, nc⟩ := r
            rw [hch] at h
            have h2 : (Except.ok (Entry.mk .Directory false [] "" cts, nc) :
                Except (List Char) (Entry × Cache)) =
                Except.ok (entry, st2) := h
            obtain ⟨he, hnc⟩ := Prod.mk.injEq .. ▸ Except.ok.injEq .. ▸ h2
            rw [← hnc]
            intro k hk
            rcases (ihch s q ents [] st cts nc hsz hch).2 k hk with hk2 |
              ⟨n2, e, comps, e2, hcts, hfp, hr⟩
            · exact Or.inl hk2
            · right
              refine ⟨n2 :: comps, e2, ?_, ?_⟩
              · rw [← he, filePairs]
                exact mem_filePairsList cts n2 e comps e2 hcts hfp
              · rw [renderUnder_cons]
                exact hr
    · intro s q ents acc st cts st2 hn h
      cases ents with
      | nil =>
        rw [children_nil_eq] at h
        obtain ⟨hc, hs⟩ := Prod.mk.injEq .. ▸ Except.ok.injEq .. ▸ h
        subst hc
        subst hs
        exact ⟨fun p hp => hp, fun k hk => Or.inl hk⟩
      | cons hd rest =>
        obtain ⟨name, fate⟩ := hd
        have hrest : sizeOf rest ≤ n := by
          simp_arith at hn
          omega
        cases fate with
        | notFound =>
          rw [children_cons_notFound] at h
          by_cases hi : ignored s.pathIgnorer (pathJoin q name) = true
          · rw [if_pos hi] at h
            exact ihch s q rest acc st cts st2 hrest h
          · rw [if_neg hi] at h
            exact ihch s q rest acc st cts st2 hrest h
        | ioErr =>
          rw [children_cons_ioErr] at h
          by_cases hi : ignored s.pathIgnorer (pathJoin q name) = true
          · rw [if_pos hi] at h
            exact ihch s q rest acc st cts st2 hrest h
          · rw [if_neg hi] at h
            exact absurd h (by simp)
        | found t =>
          have ht : sizeOf t ≤ n := by
            simp_arith at hn
            omega
          rw [children_cons_found] at h
          by_cases hi : ignored s.pathIgnorer (pathJoin q name) = true
          · rw [if_pos hi] at h
            exact ihch s q rest acc st cts st2 hrest h
          · rw [if_neg hi] at h
            by_cases hdir : t.info.mode &&& ModeDir ≠ 0
            · rw [if_pos hdir] at h
              cases hd2 : scanner.directory s (pathJoin q name) t st with
              | error e =>
                rw [hd2] at h
                exact absurd h (by simp)
              | ok r =>
                obtain ⟨entry, nc⟩ := r
                rw [hd2] at h
                have h3 : scanner.children s q rest ((name, entry) :: acc)
                    nc = .ok (cts, st2) := h
                obtain ⟨hacc, hkeys⟩ :=
                  ihch s q rest ((name, entry) :: acc) nc cts st2 hrest h3
                have hdirk := ihdir s (pathJoin q name) t st entry nc ht hd2
                refine ⟨fun p hp => hacc p (List.mem_cons_of_mem _ hp),
                  fun k hk => ?_⟩
                rcases hkeys k hk with hk2 |
                  ⟨n2, e, comps, e2, hcts, hfp, hr⟩
                · rcases hdirk k hk2 with hk3 | ⟨comps, e2, hfp, hr⟩
                  · exact Or.inl hk3
                  · exact Or.inr ⟨name, entry, comps, e2,
                      hacc _ (List.mem_cons_self _ _), hfp, hr⟩
                · exact Or.inr ⟨n2, e, comps, e2, hcts, hfp, hr⟩
            · rw [if_neg hdir] at h
              by_cases hsym : t.info.mode &&& ModeSymlink ≠ 0
              · rw [if_pos hsym] at h
                have h4 : (match scanner.symlink s (pathJoin q name)
                      t.target with
                    | .error e => (.error e :
                        Except (List Char) (List (String × Entry) × Cache))
                    | .ok entry =>
                      scanner.children s q rest ((name, entry) :: acc) st) =
                    .ok (cts, st2) := h
                cases hsl : scanner.symlink s (pathJoin q name) t.target with
                | error e =>
                  rw [hsl] at h4
                  exact absurd h4 (by simp)
                | ok entry =>
                  rw [hsl] at h4
                  have h3 : scanner.children s q rest ((name, entry) :: acc)
                      st = .ok (cts, st2) := h4
                  obtain ⟨hacc, hkeys⟩ :=
                    ihch s q rest ((name, entry) :: acc) st cts st2 hrest h3
                  exact ⟨fun p hp => hacc p (List.mem_cons_of_mem _ hp),
                    hkeys⟩
              · rw [if_neg hsym] at h
                by_cases htyp : t.info.mode &&& ModeType ≠ 0
                · rw [if_pos htyp] at h
                  exact ihch s q rest acc st cts st2 hrest h
                · rw [if_neg htyp] at h
                  by_cases hsz : s.ignoreSize > 0 ∧ t.info.size ≥ s.ignoreSize
                  · rw [if_pos hsz] at h
                    exact ihch s q rest acc st cts st2 hrest h
                  · rw [if_neg hsz] at h
                    cases hf : scanner.file s (pathJoin q name) t.info
                        t.content st with
                    | error e =>
                      rw [hf] at h
                      exact absurd h (by simp)
                    | ok r =>
                      obtain ⟨entry, nc⟩ := r
                      rw [hf] at h
                      have h3 : scanner.children s q rest
                          ((name, entry) :: acc) nc = .ok (cts, st2) := h
                      obtain ⟨hacc, hkeys⟩ :=
                        ihch s q rest ((name, entry) :: acc) nc cts st2
                          hrest h3
                      obtain ⟨d, hE, hnc⟩ := scanner_file_ok s
                        (pathJoin q name) t.info t.content st entry nc hf
                      refine ⟨fun p hp =>
                        hacc p (List.mem_cons_of_mem _ hp),
                        fun k hk => ?_⟩
                      rcases hkeys k hk with hk2 |
                        ⟨n2, e, comps, e2, hcts, hfp, hr⟩
                      · rw [hnc, cacheKeys_insert] at hk2
                        rcases List.mem_cons.mp hk2 with hk3 | hk3
                        · refine Or.inr ⟨name, entry, [], entry,
                            hacc _ (List.mem_cons_self _ _), ?_, hk3⟩
                          rw [hE, filePairs]
                          exact List.mem_singleton.mpr rfl
                        · exact Or.inl hk3
                      · exact Or.inr ⟨n2, e, comps, e2, hcts, hfp, hr⟩

/-- Claim C7: every key of the output cache of a successful scan is the
relative path of a File entry produced in the returned snapshot. The
output cache starts empty per scan, so entries of the input cache for
paths not scanned as files (vanished, ignored, or non-file paths) never
appear in it. -/
theorem c7_output_cache_keys (root : RootStat)
    (hasher : List Nat → List Nat) (cache : Option Cache)
    (ignores : List String) (ignoreSize : Nat) (entryOpt : Option Entry)
    (outCache : Cache)
    (h : Scan root hasher cache ignores ignoreSize = .ok (entryOpt, outCache)) :
    ∀ k ∈ cacheKeys outCache, ∃ entry comps e, entryOpt = some entry ∧
      (comps, e) ∈ filePairs entry ∧ e.Kind = .File ∧
      k = renderUnder "" comps := by
  cases hig : newPathIgnorer ignores with
  | error e =>
    simp only [Scan, hig] at h
    exact absurd h (by simp)
  | ok pats =>
    cases root with
    | notFound =>
      simp only [Scan, hig] at h
      obtain ⟨h1, h2⟩ := Prod.mk.injEq .. ▸ Except.ok.injEq .. ▸ h
      rw [← h2]
      intro k hk
      simp [cacheKeys] at hk
    | ioErr =>
      simp only [Scan, hig] at h
      exact absurd h (by simp)
    | found t =>
      simp only [Scan, hig] at h
      split at h
      · -- directory root
        cases heq : scanner.directory ⟨hasher, cache.getD [], pats,
            ignoreSize⟩ "" t [] with
        | error e =>
          rw [heq] at h
          exact absurd h (by simp)
        | ok r =>
          obtain ⟨rootEntry, newCache⟩ := r
          rw [heq] at h
          have h2 : (Except.ok (some rootEntry, newCache) :
              Except (List Char) (Option Entry × Cache)) =
              .ok (entryOpt, outCache) := h
          obtain ⟨h1, h2⟩ := Prod.mk.injEq .. ▸ Except.ok.injEq .. ▸ h2
          rw [← h1, ← h2]
          intro k hk
          rcases ((c7_strong (sizeOf t)).1 _ "" t [] rootEntry newCache
            (Nat.le_refl _) heq) k hk with hk2 | ⟨comps, e2, hfp, hr⟩
          · simp [cacheKeys] at hk2
          · exact ⟨rootEntry, comps, e2, rfl, hfp,
              filePairs_kind_entry rootEntry comps e2 hfp, hr⟩
      · split at h
        · exact absurd h (by simp)
        · -- file root
          cases heq : scanner.file ⟨hasher, cache.getD [], pats,
              ignoreSize⟩ "" t.info t.content [] with
          | error e =>
            rw [heq] at h
            exact absurd h (by simp)
          | ok r =>
            obtain ⟨rootEntry, newCache⟩ := r
            rw [heq] at h
            have h2 : (Except.ok (some rootEntry, newCache) :
                Except (List Char) (Option Entry × Cache)) =
                .ok (entryOpt, outCache) := h
            obtain ⟨h1, h2⟩ := Prod.mk.injEq .. ▸ Except.ok.injEq .. ▸ h2
            rw [← h1, ← h2]
            obtain ⟨d, hE, hnc⟩ := scanner_file_ok _ "" t.info t.content []
              rootEntry newCache heq
            intro k hk
            rw [hnc, cacheKeys_insert] at hk
            rcases List.mem_cons.mp hk with hk2 | hk2
            · refine ⟨rootEntry, [], rootEntry, rfl, ?_, ?_, hk2⟩
              · rw [hE, filePairs]
                exact List.mem_singleton.mpr rfl
              · rw [hE]
                rfl
            · simp [cacheKeys] at hk2

/-- Witness for C7 at a concrete scan of a directory with one file
child. -/
theorem c7_witness :
    ∃ entry comps e,
      (some (Entry.mk .Directory false [] ""
        [("a", Entry.mk .File false [1] "" [])]) : Option Entry) =
          some entry ∧
      (comps, e) ∈ filePairs entry ∧ e.Kind = .File ∧
      "a" = renderUnder "" comps :=
  c7_output_cache_keys (.found c6dir) hashLen none [] 0
    (some (Entry.mk .Directory false [] ""
      [("a", Entry.mk .File false [1] "" [])]))
    [("a", ⟨0o644, 5, 1, [1]⟩)] rfl "a" (by simp [cacheKeys])

/-- Two separator-free name segments followed by good suffixes can only
agree if they agree componentwise. -/
theorem nameSplit : ∀ (a b t1 t2 : List Char), '/' ∉ a → '/' ∉ b →
    goodSuffix t1 → goodSuffix t2 → a ++ t1 = b ++ t2 →
    a = b ∧ t1 = t2 := by
  intro a
  induction a with
  | nil =>
    intro b t1 t2 _ hb ht1 _ h
    cases b with
    | nil => exact ⟨rfl, h⟩
    | cons c b' =>
      rw [List.nil_append] at h
      rcases ht1 with h1 | ⟨r, h1⟩
      · rw [h1] at h
        exact absurd h.symm (by simp)
      · rw [h1] at h
        injection h with hc _
        exact absurd (by simp [← hc]) hb
  | cons c a' ih =>
    intro b t1 t2 ha hb ht1 ht2 h
    cases b with
    | nil =>
      rw [List.nil_append] at h
      rcases ht2 with h2 | ⟨r, h2⟩
      · rw [h2] at h
        exact absurd h (by simp)
      · rw [h2] at h
        injection h with hc _
        exact absurd (by simp [hc]) ha
    | cons d b' =>
      injection h with hc h
      have ha' : '/' ∉ a' := fun hh => ha (by simp [hh])
      have hb' : '/' ∉ b' := fun hh => hb (by simp [hh])
      obtain ⟨h1, h2⟩ := ih b' t1 t2 ha' hb' ht1 ht2 h
      exact ⟨by rw [hc, h1], h2⟩

theorem appendLeftCancel : ∀ (a b c : List Char), a ++ b = a ++ c → b = c := by
  intro a
  induction a with
  | nil => intro b c h; exact h
  | cons x a' ih =>
    intro b c h
    injection h with _ h
    exact ih b c h

theorem pathJoin_data (q n : String) :
    (pathJoin q n).data = prefixData q ++ n.data := by
  by_cases hq : q = ""
  · simp [pathJoin, prefixData, hq]
  · simp [pathJoin, prefixData, hq, String.data_append]

theorem goodName_spec (n : String) (h : goodName n = true) :
    n.data ≠ [] ∧ '/' ∉ n.data := by
  rw [goodName, Bool.and_eq_true] at h
  obtain ⟨h1, h2⟩ := h
  constructor
  · intro hd
    rw [bne_iff_ne] at h1
    apply h1
    cases n with
    | mk l => cases hd; rfl
  · exact of_decide_eq_true h2

theorem keyIn_self (base : String) : keyIn base base :=
  ⟨[], by simp, rfl⟩

theorem renderUnder_data (comps : List String) :
    ∀ (base : String), base.data ≠ [] →
      (∀ c ∈ comps, goodName c = true) →
      ∃ s, (renderUnder base comps).data = base.data ++ s ∧ goodSuffix s := by
  induction comps with
  | nil => intro base _ _; exact ⟨[], by simp [renderUnder], Or.inl rfl⟩
  | cons c cs ih =>
    intro base hbase hgood
    have hc : goodName c = true := hgood c (by simp)
    have hcs : ∀ x ∈ cs, goodName x = true :=
      fun x hx => hgood x (by simp [hx])
    have hjoin : (pathJoin base c).data = base.data ++ '/' :: c.data := by
      rw [pathJoin_data, prefixData]
      split
      · next hq => exact absurd (show base.data = [] by rw [hq]) hbase
      · simp
    have hne : (pathJoin base c).data ≠ [] := by
      rw [hjoin]
      simp
    obtain ⟨s, hs, hgs⟩ := ih (pathJoin base c) hne hcs
    refine ⟨'/' :: c.data ++ s, ?_, Or.inr ⟨c.data ++ s, rfl⟩⟩
    rw [renderUnder_cons, hs, hjoin]
    simp

theorem keyIn_data (base k : String) (hbase : base.data ≠ [])
    (h : keyIn base k) :
    ∃ s, k.data = base.data ++ s ∧ goodSuffix s := by
  obtain ⟨comps, hgood, hk⟩ := h
  obtain ⟨s, hs, hgs⟩ := renderUnder_data comps base hbase hgood
  exact ⟨s, by rw [hk, hs], hgs⟩

/-- Keys written under two distinct child names of the same directory are
distinct: the subtree key spaces are disjoint. -/
theorem keyIn_disjoint (q n1 n2 k : String)
    (h1 : goodName n1 = true) (h2 : goodName n2 = true) (hne : n1 ≠ n2)
    (hk1 : keyIn (pathJoin q n1) k) (hk2 : keyIn (pathJoin q n2) k) :
    False := by
  obtain ⟨hne1, hsl1⟩ := goodName_spec n1 h1
  obtain ⟨hne2, hsl2⟩ := goodName_spec n2 h2
  have hb1 : (pathJoin q n1).data = prefixData q ++ n1.data := pathJoin_data q n1
  have hb2 : (pathJoin q n2).data = prefixData q ++ n2.data := pathJoin_data q n2
  have hbne1 : (pathJoin q n1).data ≠ [] := by
    rw [hb1]
    intro hc
    exact hne1 (List.append_eq_nil.mp hc).2
  have hbne2 : (pathJoin q n2).data ≠ [] := by
    rw [hb2]
    intro hc
    exact hne2 (List.append_eq_nil.mp hc).2
  obtain ⟨s1, hs1, hgs1⟩ := keyIn_data _ k hbne1 hk1
  obtain ⟨s2, hs2, hgs2⟩ := keyIn_data _ k hbne2 hk2
  rw [hb1] at hs1
  rw [hb2] at hs2
  have heq : prefixData q ++ (n1.data ++ s1) = prefixData q ++ (n2.data ++ s2) := by
    rw [← List.append_assoc, ← List.append_assoc, ← hs1, ← hs2]
  have heq2 := appendLeftCancel _ _ _ heq
  obtain ⟨hn, _⟩ := nameSplit n1.data n2.data s1 s2 hsl1 hsl2 hgs1 hgs2 heq2
  exact hne (String.ext hn)

theorem lookupCache_append_not_mem (a b : Cache) (k : String)
    (h : k ∉ cacheKeys a) :
    lookupCache (a ++ b) k = lookupCache b k := by
  induction a with
  | nil => rfl
  | cons p rest ih =>
    obtain ⟨kp, ce⟩ := p
    have hk : kp ≠ k := by
      intro hc
      exact h (by rw [cacheKeys]; simp [hc])
    have hrest : k ∉ cacheKeys rest := by
      intro hc
      apply h
      rw [cacheKeys] at hc ⊢
      simp at hc ⊢
      exact Or.inr hc
    rw [List.cons_append, lookupCache, List.find?]
    have : ((kp, ce).1 == k) = false := by
      simp [hk]
    rw [this]
    exact ih hrest

theorem cacheKeys_append (a b : Cache) :
    cacheKeys (a ++ b) = cacheKeys a ++ cacheKeys b := by
  rw [cacheKeys, cacheKeys, cacheKeys, List.map_append]

/-- A listed name found by the per-child lstat is located by `findFound`
when the listing's names are pairwise distinct. -/
theorem findFound_of_nodup :
    ∀ (ents : List (String × Lstat FSTree)) (n : String) (t : FSTree),
    (n, Lstat.found t) ∈ ents → (ents.map Prod.fst).Nodup →
    findFound ents n = some t := by
  intro ents
  induction ents with
  | nil => intro n t h _; simp at h
  | cons p rest ih =>
    intro n t h hnd
    obtain ⟨m, g⟩ := p
    rw [List.map_cons, List.nodup_cons] at hnd
    obtain ⟨hnm, hnd2⟩ := hnd
    rw [List.mem_cons] at h
    by_cases hm : m = n
    · subst hm
      rcases h with h | h
      · obtain ⟨_, hg⟩ := Prod.mk.injEq .. ▸ h
        rw [findFound, List.find?]
        have : ((m, g).1 == m) = true := by simp
        rw [this, ← hg]
      · exact absurd (List.mem_map.mpr ⟨(m, Lstat.found t), h, rfl⟩) hnm
    · rcases h with h | h
      · obtain ⟨hn, _⟩ := Prod.mk.injEq .. ▸ h
        exact absurd hn.symm hm
      · rw [findFound, List.find?]
        have : ((m, g).1 == n) = false := by simp [hm]
        rw [this]
        exact ih n t h hnd2

theorem wfList_mem :
    ∀ (ents : List (String × Lstat FSTree)) (n : String)
      (f : Lstat FSTree), wfList ents = true → (n, f) ∈ ents →
    goodName n = true ∧ ∀ t, f = .found t → wfTree t = true := by
  intro ents
  induction ents with
  | nil => intro n f _ h; simp at h
  | cons p rest ih =>
    intro n f hwf h
    obtain ⟨m, g⟩ := p
    have hwf2 : (goodName m && lstatWf g && wfList rest) = true := hwf
    rw [Bool.and_eq_true, Bool.and_eq_true] at hwf2
    obtain ⟨⟨hm, hg⟩, hrest⟩ := hwf2
    rcases List.mem_cons.mp h with h | h
    · obtain ⟨hn, hf⟩ := Prod.mk.injEq .. ▸ h
      subst hn
      subst hf
      refine ⟨hm, fun t ht => ?_⟩
      subst ht
      exact hg
    · exact ih n f hrest h

theorem filePairsList_mem_inv :
    ∀ (cts : List (String × Entry)) (comps : List String) (e2 : Entry),
    (comps, e2) ∈ filePairsList cts →
    ∃ n2 e comps2, comps = n2 :: comps2 ∧ (n2, e) ∈ cts ∧
      (comps2, e2) ∈ filePairs e := by
  intro cts
  induction cts with
  | nil => intro comps e2 h; rw [filePairsList] at h; simp at h
  | cons p rest ih =>
    intro comps e2 h
    obtain ⟨n, e⟩ := p
    rw [filePairsList] at h
    rcases List.mem_append.mp h with h | h
    · obtain ⟨⟨c1, e1⟩, hmem, heq⟩ := List.mem_map.mp h
      obtain ⟨hc, he⟩ := Prod.mk.injEq .. ▸ heq
      exact ⟨n, e, c1, hc.symm, List.mem_cons_self _ _, he ▸ hmem⟩
    · obtain ⟨n2, e3, comps2, hc, hm, hf⟩ := ih comps e2 h
      exact ⟨n2, e3, comps2, hc, List.mem_cons_of_mem _ hm, hf⟩

theorem lookupCache_insert_self (st : Cache) (p : String) (ce : CacheEntry) :
    lookupCache (insertCache st p ce) p = some ce := by
  rw [insertCache, lookupCache, List.find?]
  have : ((p, ce).1 == p) = true := by simp
  rw [this]
  rfl

theorem statAtTree_cons (i : StatInfo) (c : ReadOutcome)
    (ents : List (String × Lstat FSTree)) (tg : Option String)
    (n : String) (comps : List String) :
    statAtTree (.mk i c (some ents) tg) (n :: comps) =
      match findFound ents n with
      | some t2 => statAtTree t2 comps
      | none => none := rfl

/-- Cache coherence, by strong induction on a size bound: a successful
directory scan of a well-formed tree extends the output cache only with
keys scoped under its base path and leaves every produced File entry
coherent; the per-child loop does the same per child name, with the
subtree key spaces of distinct (pairwise-distinct) child names disjoint,
so later siblings never shadow the cache entries of earlier ones. -/
theorem c2_strong (n : Nat) :
    (∀ (s : scanner) (q : String) (t : FSTree) (st : Cache) (entry : Entry)
        (st2 : Cache), sizeOf t ≤ n → wfTree t = true →
      scanner.directory s q t st = .ok (entry, st2) →
      (∃ new, st2 = new ++ st ∧ ∀ k ∈ cacheKeys new, keyIn q k) ∧
      coherentAt t q st2 entry) ∧
    (∀ (s : scanner) (q : String) (ents : List (String × Lstat FSTree))
        (acc : List (String × Entry)) (st : Cache)
        (cts : List (String × Entry)) (st2 : Cache), sizeOf ents ≤ n →
      wfList ents = true → (ents.map Prod.fst).Nodup →
      scanner.children s q ents acc st = .ok (cts, st2) →
      (∀ p ∈ acc, p ∈ cts) ∧
      (∃ new, st2 = new ++ st ∧ ∀ k ∈ cacheKeys new,
        ∃ n2 t2, (n2, Lstat.found t2) ∈ ents ∧ keyIn (pathJoin q n2) k) ∧
      ∀ p ∈ cts, p ∈ acc ∨ ∃ t2, (p.1, Lstat.found t2) ∈ ents ∧
        coherentAt t2 (pathJoin q p.1) st2 p.2) := by
  induction n with
  | zero =>
    constructor
    · intro s q t st entry st2 hn
      exact absurd hn (by cases t; simp_arith)
    · intro s q ents acc st cts st2 hn
      exact absurd hn (by cases ents <;> simp_arith)
  | succ n ih =>
    obtain ⟨ihdir, ihch⟩ := ih
    constructor
    · intro s q t st entry st2 hn hwf h
      cases t with
      | mk i c l tg =>
        cases l with
        | none =>
          rw [directory_none_eq] at h
          exact absurd h (by simp)
        | some ents =>
          rw [directory_some_eq] at h
          have hsz : sizeOf ents ≤ n := by
            simp_arith at hn
            omega
          have hwf2 : (decide ((ents.map Prod.fst).Nodup) &&
              wfList ents) = true := hwf
          rw [Bool.and_eq_true] at hwf2
          obtain ⟨hndb, hwl⟩ := hwf2
          have hnd := of_decide_eq_true hndb
          cases hch : scanner.children s q ents [] st with
          | error e =>
            rw [hch] at h
            exact absurd h (by simp)
          | ok r =>
            obtain ⟨cts, nc⟩ := r
            rw [hch] at h
            have h2 : (Except.ok (Entry.mk .Directory false [] "" cts, nc) :
                Except (List Char) (Entry × Cache)) =
                Except.ok (entry, st2) := h
            obtain ⟨he, hnc⟩ := Prod.mk.injEq .. ▸ Except.ok.injEq .. ▸ h2
            obtain ⟨hacc, ⟨new, hstnew, hscope⟩, hmain⟩ :=
              ihch s q ents [] st cts nc hsz hwl hnd hch
            constructor
            · refine ⟨new, by rw [← hnc]; exact hstnew, fun k hk => ?_⟩
              obtain ⟨n2, t2, hm, hki⟩ := hscope k hk
              obtain ⟨hgn, _⟩ := wfList_mem ents n2 (.found t2) hwl hm
              obtain ⟨comps, hg, hkr⟩ := hki
              refine ⟨n2 :: comps, fun cc hcc => ?_, ?_⟩
              · rcases List.mem_cons.mp hcc with hcc | hcc
                · rw [hcc]; exact hgn
                · exact hg cc hcc
              · rw [hkr, renderUnder_cons]
            · intro comps e2 hfp
              rw [← he] at hfp
              rw [filePairs] at hfp
              obtain ⟨n2, e, comps2, hceq, hmem, hfp2⟩ :=
                filePairsList_mem_inv cts comps e2 hfp
              rcases hmain (n2, e) hmem with habs | ⟨t2, hm, hcoh⟩
              · simp at habs
              · obtain ⟨hg2, info, hstat, hlook⟩ := hcoh comps2 e2 hfp2
                obtain ⟨hgn, _⟩ := wfList_mem ents n2 (.found t2) hwl hm
                subst hceq
                refine ⟨fun cc hcc => ?_, info, ?_, ?_⟩
                · rcases List.mem_cons.mp hcc with hcc | hcc
                  · rw [hcc]; exact hgn
                  · exact hg2 cc hcc
                · rw [statAtTree_cons, findFound_of_nodup ents n2 t2 hm hnd]
                  exact hstat
                · rw [renderUnder_cons, ← hnc]
                  exact hlook
    · intro s q ents acc st cts st2 hn hwl hnd h
      cases ents with
      | nil =>
        rw [children_nil_eq] at h
        obtain ⟨hc, hs⟩ := Prod.mk.injEq .. ▸ Except.ok.injEq .. ▸ h
        subst hc
        subst hs
        refine ⟨fun p hp => hp, ⟨[], rfl, fun k hk => ?_⟩,
          fun p hp => Or.inl hp⟩
        simp [cacheKeys] at hk
      | cons hd rest =>
        obtain ⟨name, fate⟩ := hd
        have hrest : sizeOf rest ≤ n := by
          simp_arith at hn
          omega
        have hwl2 : (goodName name && lstatWf fate && wfList rest) = true :=
          hwl
        rw [Bool.and_eq_true, Bool.and_eq_true] at hwl2
        obtain ⟨⟨hgname, hfate⟩, hwlr⟩ := hwl2
        rw [List.map_cons, List.nodup_cons] at hnd
        obtain ⟨hnmem, hndr⟩ := hnd
        cases fate with
        | notFound =>
          rw [children_cons_notFound] at h
          have h3 : scanner.children s q rest acc st = .ok (cts, st2) := by
            by_cases hi : ignored s.pathIgnorer (pathJoin q name) = true
            · rw [if_pos hi] at h; exact h
            · rw [if_neg hi] at h; exact h
          obtain ⟨hacc, ⟨new, hstn, hscope⟩, hmain⟩ :=
            ihch s q rest acc st cts st2 hrest hwlr hndr h3
          refine ⟨hacc, ⟨new, hstn, fun k hk => ?_⟩, fun p hp => ?_⟩
          · obtain ⟨n2, t2, hm, hki⟩ := hscope k hk
            exact ⟨n2, t2, List.mem_cons_of_mem _ hm, hki⟩
          · rcases hmain p hp with hp2 | ⟨t2, hm, hcoh⟩
            · exact Or.inl hp2
            · exact Or.inr ⟨t2, List.mem_cons_of_mem _ hm, hcoh⟩
        | ioErr =>
          rw [children_cons_ioErr] at h
          by_cases hi : ignored s.pathIgnorer (pathJoin q name) = true
          · rw [if_pos hi] at h
            obtain ⟨hacc, ⟨new, hstn, hscope⟩, hmain⟩ :=
              ihch s q rest acc st cts st2 hrest hwlr hndr h
            refine ⟨hacc, ⟨new, hstn, fun k hk => ?_⟩, fun p hp => ?_⟩
            · obtain ⟨n2, t2, hm, hki⟩ := hscope k hk
              exact ⟨n2, t2, List.mem_cons_of_mem _ hm, hki⟩
            · rcases hmain p hp with hp2 | ⟨t2, hm, hcoh⟩
              · exact Or.inl hp2
              · exact Or.inr ⟨t2, List.mem_cons_of_mem _ hm, hcoh⟩
          · rw [if_neg hi] at h
            exact absurd h (by simp)
        | found t =>
          have ht : sizeOf t ≤ n := by
            simp_arith at hn
            omega
          have hwt : wfTree t = true := hfate
          rw [children_cons_found] at h
          by_cases hi : ignored s.pathIgnorer (pathJoin q name) = true
          · rw [if_pos hi] at h
            obtain ⟨hacc, ⟨new, hstn, hscope⟩, hmain⟩ :=
              ihch s q rest acc st cts st2 hrest hwlr hndr h
            refine ⟨hacc, ⟨new, hstn, fun k hk => ?_⟩, fun p hp => ?_⟩
            · obtain ⟨n2, t2, hm, hki⟩ := hscope k hk
              exact ⟨n2, t2, List.mem_cons_of_mem _ hm, hki⟩
            · rcases hmain p hp with hp2 | ⟨t2, hm, hcoh⟩
              · exact Or.inl hp2
              · exact Or.inr ⟨t2, List.mem_cons_of_mem _ hm, hcoh⟩
          · rw [if_neg hi] at h
            by_cases hdir : t.info.mode &&& ModeDir ≠ 0
            · rw [if_pos hdir] at h
              cases hd2 : scanner.directory s (pathJoin q name) t st with
              | error e =>
                rw [hd2] at h
                exact absurd h (by simp)
              | ok r =>
                obtain ⟨entry, nc⟩ := r
                rw [hd2] at h
                have h3 : scanner.children s q rest ((name, entry) :: acc)
                    nc = .ok (cts, st2) := h
                obtain ⟨⟨newD, hncD, hscopeD⟩, hcohD⟩ :=
                  ihdir s (pathJoin q name) t st entry nc ht hwt hd2
                obtain ⟨haccR, ⟨newR, hst2R, hscopeR⟩, hmainR⟩ :=
                  ihch s q rest ((name, entry) :: acc) nc cts st2 hrest
                    hwlr hndr h3
                have hdisj : ∀ k, keyIn (pathJoin q name) k →
                    k ∉ cacheKeys newR := by
                  intro k hki hkmem
                  obtain ⟨n2, t2, hm2, hki2⟩ := hscopeR k hkmem
                  have hn2 : name ≠ n2 := by
                    intro hcon
                    exact hnmem (hcon ▸
                      List.mem_map.mpr ⟨(n2, .found t2), hm2, rfl⟩)
                  obtain ⟨hgn2, _⟩ := wfList_mem rest n2 (.found t2) hwlr hm2
                  exact keyIn_disjoint q name n2 k hgname hgn2 hn2 hki hki2
                have hpres : ∀ k, keyIn (pathJoin q name) k →
                    lookupCache st2 k = lookupCache nc k := by
                  intro k hki
                  rw [hst2R]
                  exact lookupCache_append_not_mem newR nc k (hdisj k hki)
                refine ⟨fun p hp => haccR p (List.mem_cons_of_mem _ hp),
                  ⟨newR ++ newD, ?_, ?_⟩, ?_⟩
                · rw [hst2R, hncD, List.append_assoc]
                · intro k hk
                  rw [cacheKeys_append, List.mem_append] at hk
                  rcases hk with hk | hk
                  · obtain ⟨n2, t2, hm2, hki⟩ := hscopeR k hk
                    exact ⟨n2, t2, List.mem_cons_of_mem _ hm2, hki⟩
                  · exact ⟨name, t, List.mem_cons_self _ _, hscopeD k hk⟩
                · intro p hp
                  rcases hmainR p hp with hp2 | ⟨t2, hm2, hcoh⟩
                  · rcases List.mem_cons.mp hp2 with hp3 | hp3
                    · subst hp3
                      refine Or.inr ⟨t, List.mem_cons_self _ _, ?_⟩
                      intro comps e2 hfp
                      obtain ⟨hg, info, hstat, hlook⟩ := hcohD comps e2 hfp
                      refine ⟨hg, info, hstat, ?_⟩
                      rw [hpres _ ⟨comps, hg, rfl⟩]
                      exact hlook
                    · exact Or.inl hp3
                  · exact Or.inr ⟨t2, List.mem_cons_of_mem _ hm2, hcoh⟩
            · rw [if_neg hdir] at h
              by_cases hsym : t.info.mode &&& ModeSymlink ≠ 0
              · rw [if_pos hsym] at h
                have h4 : (match scanner.symlink s (pathJoin q name)
                      t.target with
                    | .error e => (.error e :
                        Except (List Char) (List (String × Entry) × Cache))
                    | .ok entry =>
                      scanner.children s q rest ((name, entry) :: acc) st) =
                    .ok (cts, st2) := h
                cases hsl : scanner.symlink s (pathJoin q name) t.target with
                | error e =>
                  rw [hsl] at h4
                  exact absurd h4 (by simp)
                | ok entry =>
                  rw [hsl] at h4
                  have h3 : scanner.children s q rest ((name, entry) :: acc)
                      st = .ok (cts, st2) := h4
                  obtain ⟨haccR, ⟨newR, hst2R, hscopeR⟩, hmainR⟩ :=
                    ihch s q rest ((name, entry) :: acc) st cts st2 hrest
                      hwlr hndr h3
                  obtain ⟨tg2, hE⟩ := scanner_symlink_ok s (pathJoin q name)
                    t.target entry hsl
                  refine ⟨fun p hp => haccR p (List.mem_cons_of_mem _ hp),
                    ⟨newR, hst2R, fun k hk => ?_⟩, ?_⟩
                  · obtain ⟨n2, t2, hm2, hki⟩ := hscopeR k hk
                    exact ⟨n2, t2, List.mem_cons_of_mem _ hm2, hki⟩
                  · intro p hp
                    rcases hmainR p hp with hp2 | ⟨t2, hm2, hcoh⟩
                    · rcases List.mem_cons.mp hp2 with hp3 | hp3
                      · subst hp3
                        refine Or.inr ⟨t, List.mem_cons_self _ _, ?_⟩
                        intro comps e2 hfp
                        rw [hE, filePairs] at hfp
                        simp at hfp
                      · exact Or.inl hp3
                    · exact Or.inr ⟨t2, List.mem_cons_of_mem _ hm2, hcoh⟩
              · rw [if_neg hsym] at h
                by_cases htyp : t.info.mode &&& ModeType ≠ 0
                · rw [if_pos htyp] at h
                  obtain ⟨hacc, ⟨new, hstn, hscope⟩, hmain⟩ :=
                    ihch s q rest acc st cts st2 hrest hwlr hndr h
                  refine ⟨hacc, ⟨new, hstn, fun k hk => ?_⟩,
                    fun p hp => ?_⟩
                  · obtain ⟨n2, t2, hm, hki⟩ := hscope k hk
                    exact ⟨n2, t2, List.mem_cons_of_mem _ hm, hki⟩
                  · rcases hmain p hp with hp2 | ⟨t2, hm, hcoh⟩
                    · exact Or.inl hp2
                    · exact Or.inr ⟨t2, List.mem_cons_of_mem _ hm, hcoh⟩
                · rw [if_neg htyp] at h
                  by_cases hsz2 : s.ignoreSize > 0 ∧
                      t.info.size ≥ s.ignoreSize
                  · rw [if_pos hsz2] at h
                    obtain ⟨hacc, ⟨new, hstn, hscope⟩, hmain⟩ :=
                      ihch s q rest acc st cts st2 hrest hwlr hndr h
                    refine ⟨hacc, ⟨new, hstn, fun k hk => ?_⟩,
                      fun p hp => ?_⟩
                    · obtain ⟨n2, t2, hm, hki⟩ := hscope k hk
                      exact ⟨n2, t2, List.mem_cons_of_mem _ hm, hki⟩
                    · rcases hmain p hp with hp2 | ⟨t2, hm, hcoh⟩
                      · exact Or.inl hp2
                      · exact Or.inr ⟨t2, List.mem_cons_of_mem _ hm, hcoh⟩
                  · rw [if_neg hsz2] at h
                    cases hf : scanner.file s (pathJoin q name) t.info
                        t.content st with
                    | error e =>
                      rw [hf] at h
                      exact absurd h (by simp)
                    | ok r =>
                      obtain ⟨entry, nc⟩ := r
                      rw [hf] at h
                      have h3 : scanner.children s q rest
                          ((name, entry) :: acc) nc = .ok (cts, st2) := h
                      obtain ⟨d, hE, hnc⟩ := scanner_file_ok s
                        (pathJoin q name) t.info t.content st entry nc hf
                      obtain ⟨haccR, ⟨newR, hst2R, hscopeR⟩, hmainR⟩ :=
                        ihch s q rest ((name, entry) :: acc) nc cts st2
                          hrest hwlr hndr h3
                      have hdisj : ∀ k, keyIn (pathJoin q name) k →
                          k ∉ cacheKeys newR := by
                        intro k hki hkmem
                        obtain ⟨n2, t2, hm2, hki2⟩ := hscopeR k hkmem
                        have hn2 : name ≠ n2 := by
                          intro hcon
                          exact hnmem (hcon ▸
                            List.mem_map.mpr ⟨(n2, .found t2), hm2, rfl⟩)
                        obtain ⟨hgn2, _⟩ :=
                          wfList_mem rest n2 (.found t2) hwlr hm2
                        exact keyIn_disjoint q name n2 k hgname hgn2 hn2
                          hki hki2
                      have hpres : ∀ k, keyIn (pathJoin q name) k →
                          lookupCache st2 k = lookupCache nc k := by
                        intro k hki
                        rw [hst2R]
                        exact lookupCache_append_not_mem newR nc k
                          (hdisj k hki)
                      refine ⟨fun p hp =>
                        haccR p (List.mem_cons_of_mem _ hp),
                        ⟨newR ++ [(pathJoin q name,
                          ⟨t.info.mode, t.info.mtime, t.info.size, d⟩)],
                          ?_, ?_⟩, ?_⟩
                      · rw [hst2R, hnc, insertCache, List.append_assoc]
                        rfl
                      · intro k hk
                        rw [cacheKeys_append, List.mem_append] at hk
                        rcases hk with hk | hk
                        · obtain ⟨n2, t2, hm2, hki⟩ := hscopeR k hk
                          exact ⟨n2, t2, List.mem_cons_of_mem _ hm2, hki⟩
                        · have hk2 : k = pathJoin q name := by
                            simp [cacheKeys] at hk
                            exact hk
                          exact ⟨name, t, List.mem_cons_self _ _,
                            hk2 ▸ keyIn_self (pathJoin q name)⟩
                      · intro p hp
                        rcases hmainR p hp with hp2 | ⟨t2, hm2, hcoh⟩
                        · rcases List.mem_cons.mp hp2 with hp3 | hp3
                          · subst hp3
                            refine Or.inr ⟨t, List.mem_cons_self _ _, ?_⟩
                            intro comps e2 hfp
                            rw [hE, filePairs] at hfp
                            obtain ⟨hc2, he2⟩ :=
                              Prod.mk.injEq .. ▸ List.mem_singleton.mp hfp
                            subst hc2
                            subst he2
                            refine ⟨by simp, t.info, rfl, ?_⟩
                            show lookupCache st2 (pathJoin q name) = _
                            rw [hpres _ (keyIn_self _), hnc,
                              lookupCache_insert_self]
                            rfl
                          · exact Or.inl hp3
                        · exact Or.inr ⟨t2, List.mem_cons_of_mem _ hm2, hcoh⟩

/-- Claim C2: for every File entry produced by a successful scan of a
well-formed root, the output cache contains a CacheEntry keyed by that
file's relative path whose mode, modification time and size equal the
values observed by the stat of that file, and whose digest equals the
digest stored in the File entry. -/
theorem c2_cache_coherence (root : RootStat)
    (hasher : List Nat → List Nat) (cache : Option Cache)
    (ignores : List String) (ignoreSize : Nat) (entry : Entry)
    (outCache : Cache)
    (hwf : ∀ t, root = .found t → wfTree t = true)
    (h : Scan root hasher cache ignores ignoreSize =
      .ok (some entry, outCache)) :
    ∀ comps e, (comps, e) ∈ filePairs entry →
      ∃ t info, root = .found t ∧ statAtTree t comps = some info ∧
        lookupCache outCache (renderUnder "" comps) =
          some ⟨info.mode, info.mtime, info.size, e.Digest⟩ := by
  cases hig : newPathIgnorer ignores with
  | error e =>
    simp only [Scan, hig] at h
    exact absurd h (by simp)
  | ok pats =>
    cases root with
    | notFound =>
      simp only [Scan, hig] at h
      obtain ⟨h1, h2⟩ := Prod.mk.injEq .. ▸ Except.ok.injEq .. ▸ h
      exact absurd h1 (by simp)
    | ioErr =>
      simp only [Scan, hig] at h
      exact absurd h (by simp)
    | found t =>
      have hwt : wfTree t = true := hwf t rfl
      simp only [Scan, hig] at h
      split at h
      · -- directory root
        cases heq : scanner.directory ⟨hasher, cache.getD [], pats,
            ignoreSize⟩ "" t [] with
        | error e =>
          rw [heq] at h
          exact absurd h (by simp)
        | ok r =>
          obtain ⟨rootEntry, newCache⟩ := r
          rw [heq] at h
          have h2 : (Except.ok (some rootEntry, newCache) :
              Except (List Char) (Option Entry × Cache)) =
              .ok (some entry, outCache) := h
          obtain ⟨h1, h2⟩ := Prod.mk.injEq .. ▸ Except.ok.injEq .. ▸ h2
          have h1b : rootEntry = entry := Option.some.injEq .. ▸ h1
          obtain ⟨hscope, hcoh⟩ := (c2_strong (sizeOf t)).1 _ "" t []
            rootEntry newCache (Nat.le_refl _) hwt heq
          intro comps e hfp
          obtain ⟨hg, info, hstat, hlook⟩ := hcoh comps e (h1b ▸ hfp)
          exact ⟨t, info, rfl, hstat, h2 ▸ hlook⟩
      · split at h
        · exact absurd h (by simp)
        · -- file root
          cases heq : scanner.file ⟨hasher, cache.getD [], pats,
              ignoreSize⟩ "" t.info t.content [] with
          | error e =>
            rw [heq] at h
            exact absurd h (by simp)
          | ok r =>
            obtain ⟨rootEntry, newCache⟩ := r
            rw [heq] at h
            have h2 : (Except.ok (some rootEntry, newCache) :
                Except (List Char) (Option Entry × Cache)) =
                .ok (some entry, outCache) := h
            obtain ⟨h1, h2⟩ := Prod.mk.injEq .. ▸ Except.ok.injEq .. ▸ h2
            have h1b : rootEntry = entry := Option.some.injEq .. ▸ h1
            obtain ⟨d, hE, hnc⟩ := scanner_file_ok _ "" t.info t.content []
              rootEntry newCache heq
            intro comps e hfp
            rw [← h1b, hE, filePairs] at hfp
            obtain ⟨hc2, he2⟩ := Prod.mk.injEq .. ▸ List.mem_singleton.mp hfp
            subst hc2
            subst he2
            refine ⟨t, t.info, rfl, rfl, ?_⟩
            show lookupCache outCache "" = _
            rw [← h2, hnc, lookupCache_insert_self]
            rfl

/-- Witness for C2 at a concrete scan of a directory with one file
child. -/
theorem c2_witness :
    ∃ t info, (RootStat.found c6dir) = .found t ∧
      statAtTree t ["a"] = some info ∧
      lookupCache [("a", (⟨0o644, 5, 1, [1]⟩ : CacheEntry))]
          (renderUnder "" ["a"]) =
        some ⟨info.mode, info.mtime, info.size,
          (Entry.mk .File false [1] "" []).Digest⟩ :=
  c2_cache_coherence (.found c6dir) hashLen none [] 0
    (Entry.mk .Directory false [] "" [("a", Entry.mk .File false [1] "" [])])
    [("a", ⟨0o644, 5, 1, [1]⟩)]
    (fun t ht => by cases ht; decide)
    rfl
    ["a"] (Entry.mk .File false [1] "" [])
    (List.mem_singleton.mpr rfl)
